import Mathlib

/-!
Shallow embedding of the in-memory Unix-like file system simulator of
`src/src/main.c` (the feature-complete variant unified by the spec:
inode numbers, symbolic links, open-file descriptors, permission
enforcement).

Modelling conventions:
- C pointers to `FileEntry` are natural-number indices into a heap
  (`FSState.entries : List (Option FileEntry)`); `NULL` is `Option.none`;
  `free` sets the slot to `none`.  Dereferencing `NULL` or a freed slot is
  C undefined behavior and yields `CR.ub`.
- The `char*` content buffers are indices into a second heap
  (`FSState.buffers`).  `realloc` follows the C standard: it frees the old
  allocation and returns a fresh one (so stale copies of the old pointer
  dangle); the bytes of the grown region that C leaves indeterminate are
  modelled as zero, and every execution below overwrites them (via the
  `memset` and the final terminator) before they can be read.
- C strings are `List Char` (`CStr`).  `strtok(path, "/")` is `tokenize`.
- Loops that walk heap-allocated linked lists take explicit fuel;
  exhausting it yields `CR.fuelOut`, which models non-termination of the
  corresponding C loop when no finite fuel suffices.
- The open-file table is a plain Lean list: the C `open_files` list is
  built only by prepending freshly malloc-ed nodes and unlinking, so no
  aliasing can arise there.
- `printf` output is not modelled as text; each operation instead returns
  a small result datatype with one constructor per `printf`/return path
  of the C function, so error reporting stays observable.
-/

namespace Hebcfs

/-- Result of running a piece of C code: a value, undefined behavior
(dereference of `NULL` or of freed memory, double free, out-of-bounds
write), or fuel exhaustion (the modelled loop did not finish within the
given fuel). -/
inductive CR (α : Type) where
  | ok : α → CR α
  | ub : CR α
  | fuelOut : CR α
deriving DecidableEq, Repr

def CR.bind {α β : Type} : CR α → (α → CR β) → CR β
  | .ok a, f => f a
  | .ub, _ => .ub
  | .fuelOut, _ => .fuelOut

instance : Monad CR where
  pure := CR.ok
  bind := CR.bind

/-- C strings (`char*` contents). -/
abbrev CStr := List Char

/-- The zero byte that terminates C strings. -/
def nulChar : Char := Char.ofNat 0

/-- Convenience: the characters of a Lean string literal. -/
def cs (s : String) : CStr := s.toList

/-- What `printf("%s", buf)` emits: the bytes before the first `NUL`. -/
def cstr_out (b : CStr) : CStr := b.takeWhile (fun c => c ≠ nulChar)

/-- `strlen`. -/
def cstrlen (b : CStr) : Nat := (cstr_out b).length

/-- Mirror of `struct FileEntry` from `src/src/main.c`.  Pointer fields
(`origin`, `child`, `next`, `parent`) hold heap indices; `content` holds a
buffer-heap index; `nom_origin` is the path string cached by `fs_ln_s`
(`none` while uninitialized, which the C code never reads). -/
structure FileEntry where
  inode : Nat
  is_symbol : Nat
  origin : Option Nat
  nom_origin : Option CStr
  name : CStr
  is_directory : Bool
  size : Nat
  content : Option Nat
  link_count : Nat
  perms : Nat
  child : Option Nat
  next : Option Nat
  parent : Option Nat
deriving DecidableEq, Repr

/-- Mirror of `struct OpenFile` (minus the intrusive `next` pointer; the
table is a Lean list). -/
structure OpenFile where
  fd : Nat
  file : Nat
  flags : Nat
  offset : Nat
deriving DecidableEq, Repr

/-- The global mutable state of the program: the two heaps, the
`FileSystem` globals `root`/`current`, the open-file table and the
allocation counters `next_inode` / `next_fd`. -/
structure FSState where
  entries : List (Option FileEntry)
  buffers : List (Option CStr)
  root : Option Nat
  current : Option Nat
  open_files : List OpenFile
  next_inode : Nat
  next_fd : Nat
deriving DecidableEq, Repr

/-- State before `main` runs: both heaps empty, `fs = { NULL, NULL }`,
`next_inode = 1`, `next_fd = 3`. -/
def initState : FSState :=
  { entries := [], buffers := [], root := none, current := none,
    open_files := [], next_inode := 1, next_fd := 3 }

/-- `const int DEFAULT_FILE_SIZE = 100`. -/
def DEFAULT_FILE_SIZE : Nat := 100

/-- Read an entry slot (a dereference of the pointer `i`); `none` means
the slot was freed or never allocated. -/
def getE (s : FSState) (i : Nat) : Option FileEntry := s.entries.getD i none

/-- Overwrite an entry slot. -/
def setE (s : FSState) (i : Nat) (e : FileEntry) : FSState :=
  { s with entries := s.entries.set i (some e) }

/-- `free` an entry slot. -/
def freeE (s : FSState) (i : Nat) : FSState :=
  { s with entries := s.entries.set i none }

/-- `malloc` a fresh entry; returns the new state and the pointer. -/
def allocE (s : FSState) (e : FileEntry) : FSState × Nat :=
  ({ s with entries := s.entries ++ [some e] }, s.entries.length)

/-- Read a content buffer. -/
def getB (s : FSState) (b : Nat) : Option CStr := s.buffers.getD b none

/-- Overwrite a content buffer. -/
def setB (s : FSState) (b : Nat) (v : CStr) : FSState :=
  { s with buffers := s.buffers.set b (some v) }

/-- `free` a content buffer. -/
def freeB (s : FSState) (b : Nat) : FSState :=
  { s with buffers := s.buffers.set b none }

/-- `malloc`/`calloc` a fresh content buffer. -/
def allocB (s : FSState) (v : CStr) : FSState × Nat :=
  ({ s with buffers := s.buffers ++ [some v] }, s.buffers.length)

/-- Dereference an entry pointer: `NULL` or a freed slot is undefined
behavior. -/
def derefE (s : FSState) (p : Option Nat) : CR FileEntry :=
  match p with
  | none => .ub
  | some i =>
    match getE s i with
    | none => .ub
    | some e => .ok e

/-! ### Utility functions of the C source -/

/-- The `while (child)` loop of `find_entry`: walk the sibling chain
starting at `h` looking for `name` (`strcmp` equality).  One unit of fuel
per loop iteration. -/
def find_chain (s : FSState) : Nat → Option Nat → CStr → CR (Option Nat)
  | _, none, _ => .ok none
  | 0, some _, _ => .fuelOut
  | fuel + 1, some c, name =>
    match getE s c with
    | none => .ub
    | some ce =>
      if ce.name = name then .ok (some c)
      else find_chain s fuel ce.next name

/-- `find_entry(dir, name)`: `NULL` or non-directory `dir` gives `NULL`,
otherwise search the children. -/
def find_entry (s : FSState) (fuel : Nat) (dir : Option Nat) (name : CStr) :
    CR (Option Nat) :=
  match dir with
  | none => .ok none
  | some d =>
    match getE s d with
    | none => .ub
    | some de =>
      if de.is_directory then find_chain s fuel de.child name
      else .ok none

/-- `add_entry(dir, entry)`: silently does nothing when `dir` is `NULL`
or not a directory; otherwise prepends `entry` to the child chain with
three sequential field writes (`entry->next = dir->child`,
`dir->child = entry`, `entry->parent = dir`), faithful even when
`dir == entry`. -/
def add_entry (s : FSState) (dir : Option Nat) (eid : Nat) : CR FSState :=
  match dir with
  | none => .ok s
  | some d =>
    match getE s d with
    | none => .ub
    | some de =>
      if de.is_directory then
        match getE s eid with
        | none => .ub
        | some e =>
          let s1 := setE s eid { e with next := de.child }
          match getE s1 d with
          | none => .ub
          | some de1 =>
            let s2 := setE s1 d { de1 with child := some eid }
            match getE s2 eid with
            | none => .ub
            | some e2 => .ok (setE s2 eid { e2 with parent := some d })
      else .ok s

/-- `build_path(entry)`: walk `parent` pointers up to the root,
prepending `/name` segments; an entry with no parent renders as `/`.
Fuel bounds the depth of the parent chain. -/
def build_path (s : FSState) : Nat → Nat → CR CStr
  | 0, _ => .fuelOut
  | fuel + 1, i =>
    match getE s i with
    | none => .ub
    | some e =>
      match e.parent with
      | none => .ok ['/']
      | some p =>
        (build_path s fuel p).bind fun pp =>
          .ok (if pp = ['/'] then '/' :: e.name else pp ++ '/' :: e.name)

/-- Worker for `tokenize`: `acc` holds the characters of the token being
scanned, in reverse. -/
def tokenize_aux : CStr → CStr → List CStr
  | [], acc => if acc = [] then [] else [acc.reverse]
  | c :: rest, acc =>
    if c = '/' then
      if acc = [] then tokenize_aux rest []
      else acc.reverse :: tokenize_aux rest []
    else tokenize_aux rest (c :: acc)

/-- `strtok(path, "/")` repeatedly: the maximal nonempty runs of
characters between slashes. -/
def tokenize (p : CStr) : List CStr := tokenize_aux p []

/-- The `while (token)` loop of `resolve_path`: `courant` descends by
`find_entry`, `parent` trails one step behind.  Returns the pair
`(courant, parent)` handed back through `parentOut`. -/
def resolve_loop (s : FSState) (fuel : Nat) :
    Option Nat → Option Nat → List CStr → CR (Option Nat × Option Nat)
  | courant, parent, [] => .ok (courant, parent)
  | courant, _, t :: ts =>
    (find_entry s fuel courant t).bind fun r =>
      match r with
      | none => .ok (none, courant)
      | some e => resolve_loop s fuel (some e) courant ts

/-- `resolve_path(path, &parent)`: absolute paths start at `root`,
relative ones at `current`. -/
def resolve_path (s : FSState) (fuel : Nat) (path : CStr) :
    CR (Option Nat × Option Nat) :=
  let start := match path with
    | [] => s.current
    | c :: _ => if c = '/' then s.root else s.current
  resolve_loop s fuel start none (tokenize path)

/-! ### Backend functions -/

mutual

/-- `free_file_entry(entry)`: recursively free a subtree.  Freeing a
pointer that is already freed, and freeing a content buffer twice (which
happens when two hard links of the same file are reclaimed) is undefined
behavior. -/
def free_file_entry : Nat → FSState → Nat → CR FSState
  | 0, _, _ => .fuelOut
  | fuel + 1, s, i =>
    match getE s i with
    | none => .ub
    | some e =>
      (if e.is_directory then free_chain fuel s e.child else .ok s).bind fun s1 =>
        (match e.content with
          | none => .ok s1
          | some b =>
            match getB s1 b with
            | none => .ub
            | some _ => .ok (freeB s1 b) : CR FSState).bind fun s2 =>
          .ok (freeE s2 i)

/-- The child loop of `free_file_entry`: `suivant = child->next` is read
before the child is freed. -/
def free_chain : Nat → FSState → Option Nat → CR FSState
  | _, s, none => .ok s
  | 0, _, some _ => .fuelOut
  | fuel + 1, s, some c =>
    match getE s c with
    | none => .ub
    | some ce => (free_file_entry fuel s c).bind fun s1 => free_chain fuel s1 ce.next

end

/-- `mkfs()`: free the previous tree (if any), allocate a fresh root
named `/` with permissions 7, reset `current`, drop every open
descriptor and reset `next_fd` to 3. -/
def mkfs (s : FSState) (fuel : Nat) : CR FSState :=
  (match s.root with
    | some r => free_file_entry fuel s r
    | none => .ok s : CR FSState).bind fun s1 =>
    let rootE : FileEntry :=
      { inode := s1.next_inode, is_symbol := 0, origin := none, nom_origin := none,
        name := ['/'], is_directory := true, size := 0, content := none,
        link_count := 1, perms := 7, child := none, next := none, parent := none }
    let (s2, rid) := allocE s1 rootE
    let s3 := { s2 with root := some rid, current := some rid }
    .ok { s3 with next_inode := s1.next_inode + 1, open_files := [], next_fd := 3 }

/-- Result of `fs_open`, one constructor per `printf`/return path. -/
inductive OpenRes where
  | fd : Nat → OpenRes
  | notFound : OpenRes
  | isDir : OpenRes
  | permRead : OpenRes
  | permWrite : OpenRes
deriving DecidableEq, Repr

/-- `fs_open(filename, flag)`: looks the name up in `current` (no path
resolution), rejects directories, checks the read bit for flags 1/3 and
the write bit for flags 2/3, then pushes a fresh descriptor with
`offset = 0`. -/
def fs_open (s : FSState) (fuel : Nat) (filename : CStr) (flag : Nat) :
    CR (FSState × OpenRes) :=
  (find_entry s fuel s.current filename).bind fun r =>
    match r with
    | none => .ok (s, .notFound)
    | some i =>
      match getE s i with
      | none => .ub
      | some e =>
        if e.is_directory then .ok (s, .isDir)
        else if (flag = 1 ∨ flag = 3) ∧ e.perms &&& 4 = 0 then .ok (s, .permRead)
        else if (flag = 2 ∨ flag = 3) ∧ e.perms &&& 2 = 0 then .ok (s, .permWrite)
        else
          let ofl : OpenFile := { fd := s.next_fd, file := i, flags := flag, offset := 0 }
          .ok ({ s with open_files := ofl :: s.open_files, next_fd := s.next_fd + 1 },
            .fd ofl.fd)

/-- Result of `fs_write`, one constructor per `printf`/return path. -/
inductive WriteRes where
  | written : Nat → WriteRes
  | badFd : WriteRes
  | notWritable : WriteRes
  | permDenied : WriteRes
deriving DecidableEq, Repr

/-- `memcpy(buf + off, src, src.length)`; writing past the end of the
allocation is undefined behavior (`none`). -/
def memcpy_at (buf : CStr) (off : Nat) (src : CStr) : Option CStr :=
  if off + src.length ≤ buf.length then
    some (buf.take off ++ src ++ buf.drop (off + src.length))
  else none

/-- `memset(buf + lo, 0, hi - lo)`; out-of-bounds is undefined behavior. -/
def memset_zero (buf : CStr) (lo hi : Nat) : Option CStr :=
  if lo ≤ hi ∧ hi ≤ buf.length then
    some (buf.take lo ++ List.replicate (hi - lo) nulChar ++ buf.drop hi)
  else none

/-- `realloc(old, newLen)` for a growing buffer.  Per the C standard the
old allocation is released and the data moves to a (possibly) new block,
so the model frees the old index and returns a fresh one: any other copy
of the old pointer (e.g. in a hard-link sibling entry) dangles from now
on.  Bytes beyond the copied prefix are indeterminate in C; they are
modelled as zero and every caller below overwrites them before reading. -/
def realloc_grow (s : FSState) (old : Option Nat) (newLen : Nat) : CR (FSState × Nat) :=
  match old with
  | none =>
    let (s1, b) := allocB s (List.replicate newLen nulChar)
    .ok (s1, b)
  | some ob =>
    match getB s ob with
    | none => .ub
    | some obuf =>
      let s1 := freeB s ob
      let (s2, b) := allocB s1
        (obuf.take newLen ++ List.replicate (newLen - obuf.length) nulChar)
      .ok (s2, b)

/-- Update the first open-file record with descriptor `fd` (the node the
C loop found and mutates in place). -/
def upd_open : List OpenFile → Nat → (OpenFile → OpenFile) → List OpenFile
  | [], _, _ => []
  | o :: rest, fd, f => if o.fd = fd then f o :: rest else o :: upd_open rest fd f

/-- `fs_write(fd, data)`: look the descriptor up, check the mode, check
the write bit on the entry at write time, grow the buffer through
`realloc` + `memset` when `offset + strlen(data)` exceeds the size, copy
the bytes at `offset`, advance the offset and write the terminator at
index `size`. -/
def fs_write (s : FSState) (fd : Nat) (data : CStr) : CR (FSState × WriteRes) :=
  match s.open_files.find? (fun o => o.fd = fd) with
  | none => .ok (s, .badFd)
  | some o =>
    if ¬ (o.flags = 2 ∨ o.flags = 3) then .ok (s, .notWritable)
    else
      match getE s o.file with
      | none => .ub
      | some file =>
        if file.perms &&& 2 = 0 then .ok (s, .permDenied)
        else
          let data_len := cstrlen data
          let new_size := o.offset + data_len
          (if new_size > file.size then
            (realloc_grow s file.content (new_size + 1)).bind fun p =>
              match getB p.1 p.2 with
              | none => .ub
              | some buf =>
                match memset_zero buf file.size new_size with
                | none => .ub
                | some buf1 =>
                  .ok (setE (setB p.1 p.2 buf1) o.file
                    { file with size := new_size, content := some p.2 })
          else .ok s : CR FSState).bind fun sA =>
            match getE sA o.file with
            | none => .ub
            | some file1 =>
              match file1.content with
              | none => .ub
              | some b =>
                match getB sA b with
                | none => .ub
                | some buf =>
                  match memcpy_at buf o.offset (data.take data_len) with
                  | none => .ub
                  | some buf1 =>
                    let sB := setB sA b buf1
                    let ofl1 :=
                      upd_open sB.open_files fd
                        (fun x => { x with offset := x.offset + data_len })
                    let sC := { sB with open_files := ofl1 }
                    if file1.size < buf1.length then
                      .ok (setB sC b (buf1.set file1.size nulChar), .written data_len)
                    else .ub

/-- Drop the first open-file record with descriptor `fd`; `none` when the
descriptor is unknown. -/
def remove_open : List OpenFile → Nat → Option (List OpenFile)
  | [], _ => none
  | o :: rest, fd =>
    if o.fd = fd then some rest else (remove_open rest fd).map (o :: ·)

/-- `fs_close(fd)`: unlink and free the record; `false` reports the
`Descripteur invalide` path. -/
def fs_close (s : FSState) (fd : Nat) : FSState × Bool :=
  match remove_open s.open_files fd with
  | some l => ({ s with open_files := l }, true)
  | none => (s, false)

/-! ### User-facing operations -/

/-- Result of `fs_mkdir` / `fs_touch`. -/
inductive CreateRes where
  | created : CreateRes
  | alreadyExists : CreateRes
deriving DecidableEq, Repr

/-- `fs_mkdir(dirname)`: plain name lookup in `current` (no path
resolution), then allocate a directory with permissions 7 and prepend it. -/
def fs_mkdir (s : FSState) (fuel : Nat) (dirname : CStr) : CR (FSState × CreateRes) :=
  (find_entry s fuel s.current dirname).bind fun r =>
    match r with
    | some _ => .ok (s, .alreadyExists)
    | none =>
      let dirE : FileEntry :=
        { inode := s.next_inode, is_symbol := 0, origin := none, nom_origin := none,
          name := dirname, is_directory := true, size := 0, content := none,
          link_count := 1, perms := 7, child := none, next := none, parent := none }
      let (s1, did) := allocE { s with next_inode := s.next_inode + 1 } dirE
      (add_entry s1 s1.current did).bind fun s2 => .ok (s2, .created)

/-- `fs_touch(filename)`: plain name lookup in `current` (the argument is
NOT resolved as a path), then allocate a file of default size 100 with a
zeroed `calloc(101)` buffer and permissions 6, and prepend it. -/
def fs_touch (s : FSState) (fuel : Nat) (filename : CStr) : CR (FSState × CreateRes) :=
  (find_entry s fuel s.current filename).bind fun r =>
    match r with
    | some _ => .ok (s, .alreadyExists)
    | none =>
      let (s1, b) := allocB { s with next_inode := s.next_inode + 1 }
        (List.replicate (DEFAULT_FILE_SIZE + 1) nulChar)
      let fileE : FileEntry :=
        { inode := s.next_inode, is_symbol := 0, origin := none, nom_origin := none,
          name := filename, is_directory := false, size := DEFAULT_FILE_SIZE,
          content := some b, link_count := 1, perms := 6,
          child := none, next := none, parent := none }
      let (s2, fid) := allocE s1 fileE
      (add_entry s2 s2.current fid).bind fun s3 => .ok (s3, .created)

/-- Result of `fs_cat`, one constructor per `printf` path: `printed`
carries the bytes `printf("%s")` emits, `printedEmpty` is the silent
return when the content pointer is `NULL`. -/
inductive CatRes where
  | notFoundOrDir : CatRes
  | deadLink : CatRes
  | printed : CStr → CatRes
  | printedEmpty : CatRes
deriving DecidableEq, Repr

/-- `fs_cat(filename)`: resolve the path; reject missing entries and
directories; for a symbolic link, repoint `current` at
`origin->parent`, re-resolve `origin->name` there (marking the link Dead
on failure and Live on success) and print the origin content; for a
plain file print its content.  `current` is restored on the symlink
paths. -/
def fs_cat (s : FSState) (fuel : Nat) (filename : CStr) : CR (FSState × CatRes) :=
  let copie := s.current
  (resolve_path s fuel filename).bind fun r =>
    match r.1 with
    | none => .ok (s, .notFoundOrDir)
    | some fi =>
      match getE s fi with
      | none => .ub
      | some file =>
        if file.is_directory then .ok (s, .notFoundOrDir)
        else if file.is_symbol ≠ 0 then
          (derefE s file.origin).bind fun orig =>
            let s1 := { s with current := orig.parent }
            (resolve_path s1 fuel orig.name).bind fun r2 =>
              match r2.1 with
              | none =>
                let s2 := setE s1 fi { file with is_symbol := 2 }
                .ok ({ s2 with current := copie }, .deadLink)
              | some _ =>
                match orig.content with
                | none =>
                  let s2 := setE s1 fi { file with is_symbol := 1 }
                  .ok ({ s2 with current := copie }, .printedEmpty)
                | some b =>
                  match getB s1 b with
                  | none => .ub
                  | some buf =>
                    let s2 := setE s1 fi { file with is_symbol := 1 }
                    .ok ({ s2 with current := copie }, .printed (cstr_out buf))
        else
          match file.content with
          | none => .ok (s, .printedEmpty)
          | some b =>
            match getB s b with
            | none => .ub
            | some buf => .ok (s, .printed (cstr_out buf))

/-- Result of `fs_write_cmd`. -/
inductive WriteCmdRes where
  | deadLink : WriteCmdRes
  | openFailed : WriteCmdRes
  | wrote : Nat → WriteCmdRes
  | writeFailedRes : WriteRes → WriteCmdRes
deriving DecidableEq, Repr

/-- `fs_write_cmd(filename, texte)`: resolve the path (the C code
dereferences the result without a `NULL` check), follow a symbolic link
through `origin`, open with flag 2, `fs_write`, `fs_close`, restore
`current`.  When the open fails the C code returns early WITHOUT
restoring `current`. -/
def fs_write_cmd (s : FSState) (fuel : Nat) (filename texte : CStr) :
    CR (FSState × WriteCmdRes) :=
  let copie := s.current
  (resolve_path s fuel filename).bind fun r =>
    match r.1 with
    | none => .ub
    | some fi =>
      match getE s fi with
      | none => .ub
      | some file =>
        (if file.is_symbol ≠ 0 then
          (derefE s file.origin).bind fun orig =>
            let s1 := { s with current := orig.parent }
            (resolve_path s1 fuel orig.name).bind fun r2 =>
              match r2.1 with
              | none =>
                let s2 := setE s1 fi { file with is_symbol := 2 }
                .ok (none, { s2 with current := copie })
              | some _ =>
                (fs_open s1 fuel orig.name 2).bind fun q =>
                  let s2 := setE q.1 fi { file with is_symbol := 1 }
                  .ok (some q.2, s2)
        else
          (fs_open s fuel filename 2).bind fun q =>
            .ok (some q.2, q.1) : CR (Option OpenRes × FSState)).bind fun pr =>
          match pr.1 with
          | none => .ok (pr.2, .deadLink)
          | some (.fd n) =>
            (fs_write pr.2 n texte).bind fun w =>
              match w.2 with
              | .written k =>
                let s4 := (fs_close w.1 n).1
                .ok ({ s4 with current := copie }, .wrote k)
              | e =>
                let s4 := (fs_close w.1 n).1
                .ok ({ s4 with current := copie }, .writeFailedRes e)
          | some _ => .ok (pr.2, .openFailed)

/-- Result of `fs_chmod`. -/
inductive ChmodRes where
  | notFound : ChmodRes
  | symDenied : ChmodRes
  | changed : Int → ChmodRes
  | outOfRange : Int → ChmodRes
deriving DecidableEq, Repr

/-- `fs_chmod(perm, path)` with `perm = atoi(perm_str)`: resolve the
path, reject symbolic links, accept only 0..7 and overwrite the single
resolved entry's `perms` field. -/
def fs_chmod (s : FSState) (fuel : Nat) (perm : Int) (path : CStr) :
    CR (FSState × ChmodRes) :=
  (resolve_path s fuel path).bind fun r =>
    match r.1 with
    | none => .ok (s, .notFound)
    | some i =>
      match getE s i with
      | none => .ub
      | some e =>
        if e.is_symbol = 1 ∨ e.is_symbol = 2 then .ok (s, .symDenied)
        else if -1 < perm ∧ perm < 8 then
          .ok (setE s i { e with perms := perm.toNat }, .changed perm)
        else .ok (s, .outOfRange perm)

/-- Result of `fs_ln` / `fs_ln_s`. -/
inductive LnRes where
  | srcBad : LnRes
  | destExists : LnRes
  | created : LnRes
deriving DecidableEq, Repr

/-- `fs_ln(src, dest)` (hard link): resolve `src` to a non-directory,
check `dest` does not exist in `current`, bump `link_count` on the source
entry, and prepend a new entry with the SAME inode and the SAME content
buffer index but its own copies of `size`, `link_count` and `perms`. -/
def fs_ln (s : FSState) (fuel : Nat) (src dest : CStr) : CR (FSState × LnRes) :=
  (resolve_path s fuel src).bind fun r =>
    match r.1 with
    | none => .ok (s, .srcBad)
    | some fi =>
      match getE s fi with
      | none => .ub
      | some f =>
        if f.is_directory then .ok (s, .srcBad)
        else
          (find_entry s fuel s.current dest).bind fun d =>
            match d with
            | some _ => .ok (s, .destExists)
            | none =>
              let f1 := { f with link_count := f.link_count + 1 }
              let s1 := setE s fi f1
              let linkE : FileEntry :=
                { inode := f1.inode, is_symbol := 0, origin := none, nom_origin := none,
                  name := dest, is_directory := false, size := f1.size,
                  content := f1.content, link_count := f1.link_count, perms := f1.perms,
                  child := none, next := none, parent := none }
              let (s2, lid) := allocE s1 linkE
              (add_entry s2 s2.current lid).bind fun s3 => .ok (s3, .created)

/-- `fs_ln_s(src, dest)` (symbolic link): resolve `src` (any kind),
check `dest` does not exist in `current`, and prepend a fresh-inode
entry of symbol kind 1 holding a live pointer `origin` to the source and
the display string `nom_origin = build_path(origin)`. -/
def fs_ln_s (s : FSState) (fuel : Nat) (src dest : CStr) : CR (FSState × LnRes) :=
  (resolve_path s fuel src).bind fun r =>
    match r.1 with
    | none => .ok (s, .srcBad)
    | some fi =>
      match getE s fi with
      | none => .ub
      | some f =>
        (find_entry s fuel s.current dest).bind fun d =>
          match d with
          | some _ => .ok (s, .destExists)
          | none =>
            (build_path s fuel fi).bind fun bp =>
              let linkE : FileEntry :=
                { inode := s.next_inode, is_symbol := 1, origin := some fi,
                  nom_origin := some bp, name := dest, is_directory := f.is_directory,
                  size := f.size, content := none, link_count := 1, perms := 7,
                  child := none, next := none, parent := s.current }
              let (s1, lid) := allocE { s with next_inode := s.next_inode + 1 } linkE
              (add_entry s1 s1.current lid).bind fun s2 => .ok (s2, .created)

/-- A `FileEntry**` in the C unlink loops: either a directory's `child`
slot or an entry's `next` slot. -/
inductive Slot where
  | pchild : Nat → Slot
  | enext : Nat → Slot
deriving DecidableEq, Repr

/-- Read through a `FileEntry**`. -/
def readSlot (s : FSState) : Slot → CR (Option Nat)
  | .pchild p =>
    match getE s p with
    | none => .ub
    | some pe => .ok pe.child
  | .enext e =>
    match getE s e with
    | none => .ub
    | some ee => .ok ee.next

/-- Write through a `FileEntry**`. -/
def writeSlot (s : FSState) : Slot → Option Nat → CR FSState
  | .pchild p, v =>
    match getE s p with
    | none => .ub
    | some pe => .ok (setE s p { pe with child := v })
  | .enext e, v =>
    match getE s e with
    | none => .ub
    | some ee => .ok (setE s e { ee with next := v })

/-- The pointer-surgery loop shared by `fs_rm` and `fs_mv`:
`courant = &parent->child; while (*courant) { if (*courant == entry)
{ *courant = entry->next; ... } courant = &(*courant)->next; }`.
Returns whether the target was found and spliced out. -/
def unlink_loop : Nat → FSState → Slot → Nat → CR (FSState × Bool)
  | 0, _, _, _ => .fuelOut
  | fuel + 1, s, slot, target =>
    (readSlot s slot).bind fun cur =>
      match cur with
      | none => .ok (s, false)
      | some c =>
        if c = target then
          (derefE s (some c)).bind fun ce =>
            (writeSlot s slot ce.next).bind fun s1 => .ok (s1, true)
        else unlink_loop fuel s (.enext c) target

/-- Result of `fs_rm`. -/
inductive RmRes where
  | notFound : RmRes
  | isRoot : RmRes
  | notEmpty : RmRes
  | removed : RmRes
  | silentMiss : RmRes
deriving DecidableEq, Repr

/-- `fs_rm(path)`: resolve with parent; reject the root and non-empty
directories; splice the entry out of the parent chain and free its name,
its content buffer (UNCONDITIONALLY, with no `link_count` bookkeeping)
and the entry itself. -/
def fs_rm (s : FSState) (fuel : Nat) (path : CStr) : CR (FSState × RmRes) :=
  (resolve_path s fuel path).bind fun r =>
    match r.1 with
    | none => .ok (s, .notFound)
    | some i =>
      match r.2 with
      | none => .ok (s, .isRoot)
      | some p =>
        match getE s i with
        | none => .ub
        | some e =>
          if e.is_directory ∧ e.child ≠ none then .ok (s, .notEmpty)
          else
            (unlink_loop fuel s (.pchild p) i).bind fun q =>
              if q.2 then
                (match e.content with
                  | none => .ok (freeE q.1 i)
                  | some b =>
                    match getB q.1 b with
                    | none => .ub
                    | some _ => .ok (freeE (freeB q.1 b) i) : CR FSState).bind fun s2 =>
                  .ok (s2, .removed)
              else .ok (q.1, .silentMiss)

/-- Result of `fs_mv`. -/
inductive MvRes where
  | srcNotFound : MvRes
  | destInvalid : MvRes
  | moved : MvRes
deriving DecidableEq, Repr

/-- `strrchr(dest, '/')` as a split: `some (before, after)` around the
LAST slash, `none` when there is no slash. -/
def strrchr_split (d : CStr) : Option (CStr × CStr) :=
  match d.reverse.dropWhile (fun c => c ≠ '/') with
  | [] => none
  | _ :: rest => some (rest.reverse, (d.reverse.takeWhile (fun c => c ≠ '/')).reverse)

/-- `fs_mv(src, dest)`: resolve `src` with its parent; parse `dest`
around its last slash (resolving the prefix to a directory) or reuse the
source parent; splice the entry out of the old chain, rename it and
prepend it to the new parent.  NOTE: no check that `new_name` already
exists in the destination directory. -/
def fs_mv (s : FSState) (fuel : Nat) (src dest : CStr) : CR (FSState × MvRes) :=
  (resolve_path s fuel src).bind fun r =>
    match r.1 with
    | none => .ok (s, .srcNotFound)
    | some i =>
      (match strrchr_split dest with
        | some pn =>
          (resolve_path s fuel pn.1).bind fun q =>
            match q.1 with
            | none => .ok none
            | some np =>
              match getE s np with
              | none => .ub
              | some npe =>
                if npe.is_directory then .ok (some (some np, pn.2)) else .ok none
        | none => .ok (some (r.2, dest)) : CR (Option (Option Nat × CStr))).bind fun pr =>
        match pr with
        | none => .ok (s, .destInvalid)
        | some nn =>
          match r.2 with
          | none => .ub
          | some p =>
            (unlink_loop fuel s (.pchild p) i).bind fun q2 =>
              match getE q2.1 i with
              | none => .ub
              | some e =>
                let s2 := setE q2.1 i { e with name := nn.2, parent := nn.1 }
                (add_entry s2 nn.1 i).bind fun s3 => .ok (s3, .moved)

/-- The call stack of the recursive `fs_tree`: `top` is a call of
`fs_tree(arg, indentation)`, `kids` the `while (child)` loop over the
chain of `cible`. -/
inductive TreeJob where
  | top : Option CStr → Nat → TreeJob
  | kids : Nat → Option Nat → Nat → TreeJob
deriving DecidableEq, Repr

/-- One interpreter for the mutually recursive `fs_tree` body and its
child loop, fuelled.  Output lines are abstracted as
`(indentation, entry id)` pairs.  For a directory child the C code first
repoints `fs.current` at `cible` ("MAJ du dossier courant, sinon ca
bug") and recurses on the child's NAME, which is re-resolved; after the
loop `fs.current = cible` is left in place.  Symbol children of any kind
are printed at one level and never recursed into. -/
def tree_run : Nat → FSState → TreeJob → CR (FSState × List (Nat × Nat))
  | 0, _, _ => .fuelOut
  | fuel + 1, s, .top arg ind =>
    (match arg with
      | none =>
        match s.current with
        | none => .ub
        | some c => .ok (some c)
      | some a =>
        (resolve_path s (fuel + 1) a).bind fun r =>
          .ok r.1 : CR (Option Nat)).bind fun co =>
      match co with
      | none => .ok (s, [])
      | some c =>
        match getE s c with
        | none => .ub
        | some ce =>
          if arg.isSome ∧ ¬ ce.is_directory then .ok (s, [(ind, c)])
          else
            (tree_run fuel s (.kids c ce.child ind)).bind fun q =>
              .ok ({ q.1 with current := some c }, (ind, c) :: q.2)
  | fuel + 1, s, .kids cib chain ind =>
    match chain with
    | none => .ok (s, [])
    | some ch =>
      match getE s ch with
      | none => .ub
      | some che =>
        if che.is_symbol ≠ 0 then
          (tree_run fuel s (.kids cib che.next ind)).bind fun q =>
            .ok (q.1, (ind + 1, ch) :: q.2)
        else if che.is_directory then
          (tree_run fuel { s with current := some cib }
              (.top (some che.name) (ind + 1))).bind fun q1 =>
            (tree_run fuel q1.1 (.kids cib che.next ind)).bind fun q2 =>
              .ok (q2.1, q1.2 ++ q2.2)
        else
          (tree_run fuel s (.kids cib che.next ind)).bind fun q =>
            .ok (q.1, (ind + 1, ch) :: q.2)

/-- `fs_tree(arg, indentation)`. -/
def fs_tree (fuel : Nat) (s : FSState) (arg : Option CStr) (ind : Nat) :
    CR (FSState × List (Nat × Nat)) :=
  tree_run fuel s (.top arg ind)

/-! ### Derived observations -/

/-- `fs_tree` runs forever from this configuration: no amount of fuel
completes it. -/
def treeDiverges (s : FSState) (arg : Option CStr) (ind : Nat) : Prop :=
  ∀ fuel, fs_tree fuel s arg ind = .fuelOut

/-- The names along a sibling chain, in order (`none` on a dangling or
over-long chain). -/
def chain_names (s : FSState) : Nat → Option Nat → Option (List CStr)
  | _, none => some []
  | 0, some _ => none
  | fuel + 1, some c =>
    match getE s c with
    | none => none
    | some ce => (chain_names s fuel ce.next).map (ce.name :: ·)

/-! ### Concrete command sequences

Each `st...` state below is the result of running a command sequence
from a freshly formatted file system; the claim theorems additionally
pin down every individual step, so the `outState` default can never mask
a failed step. -/

/-- Extract the state of a successful step (default otherwise). -/
def outState {α : Type} (r : CR (FSState × α)) (d : FSState) : FSState :=
  match r with
  | .ok p => p.1
  | _ => d

/-- Extract the state of a successful `mkfs` (default otherwise). -/
def runS (r : CR FSState) (d : FSState) : FSState :=
  match r with
  | .ok s => s
  | _ => d

/-- After `mkfs`. -/
def stRoot : FSState := runS (mkfs initState 5) initState

/-- After `mkfs; touch a`. -/
def stA : FSState := outState (fs_touch stRoot 10 (cs "a")) stRoot

/-- After `mkfs; touch a; ln a b`: entries 1 (`a`) and 2 (`b`) share
content buffer 0. -/
def stAB : FSState := outState (fs_ln stA 10 (cs "a") (cs "b")) stA

/-- After also `open("a", 2)`, which yields descriptor 3. -/
def stOpen : FSState := outState (fs_open stAB 10 (cs "a") 2) stAB

/-- After also `write(3, "hello")` (5 bytes, no growth). -/
def stSmallW : FSState := outState (fs_write stOpen 3 (cs "hello")) stOpen

/-- 101 bytes, one more than the default file size: forces the buffer to
grow through `realloc`. -/
def bigData : CStr := List.replicate 101 'x'

/-- After `write(3, bigData)` instead: the growing write. -/
def stBigW : FSState := outState (fs_write stOpen 3 bigData) stOpen

/-- After `mkfs; touch a; ln -s a b`: entry 2 is the symlink. -/
def stSym : FSState := outState (fs_ln_s stA 10 (cs "a") (cs "b")) stA

/-- After also `rm a`. -/
def stSymRm : FSState := outState (fs_rm stSym 10 (cs "a")) stSym

/-- After `mkfs; touch a; ln a b; rm a`. -/
def stRmA : FSState := outState (fs_rm stAB 10 (cs "a")) stAB

/-- After `mkfs; mkdir a`. -/
def stDirA : FSState := outState (fs_mkdir stRoot 10 (cs "a")) stRoot

/-- After `mkfs; mkdir a; touch a/f`. -/
def stTouchAF : FSState := outState (fs_touch stDirA 10 (cs "a/f")) stDirA

/-- After `mkfs; touch x`. -/
def stX : FSState := outState (fs_touch stRoot 10 (cs "x")) stRoot

/-- After `mkfs; touch x; touch y`. -/
def stXY : FSState := outState (fs_touch stX 10 (cs "y")) stX

/-- After `mkfs; touch x; touch y; mv x y`. -/
def stMvXY : FSState := outState (fs_mv stXY 10 (cs "x") (cs "y")) stXY

/-- After `mkfs; touch x/y` (a root child literally named `x/y`). -/
def stSlashY : FSState := outState (fs_touch stRoot 10 (cs "x/y")) stRoot

/-- Root of the `mkdir /` state, with the slash-named directory as its
child. -/
def slashRootE : FileEntry :=
  { inode := 1, is_symbol := 0, origin := none, nom_origin := none,
    name := ['/'], is_directory := true, size := 0, content := none,
    link_count := 1, perms := 7, child := some 1, next := none, parent := none }

/-- The directory named `/` created inside the root by `mkdir /`. -/
def slashDirE : FileEntry :=
  { inode := 2, is_symbol := 0, origin := none, nom_origin := none,
    name := ['/'], is_directory := true, size := 0, content := none,
    link_count := 1, perms := 7, child := none, next := none, parent := some 0 }

/-- After `mkfs; mkdir /` (written as a literal so the divergence proof
can unfold it definitionally; the C8 theorem proves it equal to the
command result). -/
def stSlashDir : FSState :=
  { entries := [some slashRootE, some slashDirE], buffers := [],
    root := some 0, current := some 0, open_files := [],
    next_inode := 3, next_fd := 3 }

/-- After `mkfs; touch f`. -/
def stF : FSState := outState (fs_touch stRoot 10 (cs "f")) stRoot

/-- After `mkfs; touch f; chmod 4 f`. -/
def stF4 : FSState := outState (fs_chmod stF 10 4 (cs "f")) stF

/-- After `mkfs; touch f; open("f", 2)` (descriptor 3, legally opened
while `f` was still writable). -/
def stFOpen : FSState := outState (fs_open stF 10 (cs "f") 2) stF

/-- After also `chmod 4 f`: write permission revoked AFTER the open. -/
def stFOpenC : FSState := outState (fs_chmod stFOpen 10 4 (cs "f")) stFOpen

/-- After `mkfs; touch a; ln a b; chmod 4 a`. -/
def stChmodA : FSState := outState (fs_chmod stAB 10 4 (cs "a")) stAB

/-- The hard-link entry `a` (index 1) of `stAB`, spelled out for the
C10 witness. -/
def eA1 : FileEntry :=
  { inode := 2, is_symbol := 0, origin := none, nom_origin := none,
    name := ['a'], is_directory := false, size := 100, content := some 0,
    link_count := 2, perms := 6, child := none, next := none, parent := some 0 }

/-! ### Semantic predicates about heap states

These describe, in derivation form, the linked-list and tree structure
that the fuelled walking functions traverse; the lemmas below connect
them to the executable functions. -/

/-- The sibling chain starting at pointer `h` consists exactly of the
entry ids `l` (finite, fully live, `next`-linked). -/
inductive SibChain (s : FSState) : Option Nat → List Nat → Prop
  | nil : SibChain s none []
  | cons (i : Nat) (l : List Nat) (e : FileEntry)
      (hg : getE s i = some e) (hch : SibChain s e.next l) :
      SibChain s (some i) (i :: l)

/-- Entry `i` is reachable from the root by the segment names `ns`:
each step goes to a child of the previous directory whose name is
nonempty, slash-free, and unique in its sibling chain, and whose
`parent` pointer agrees.  This is the well-formedness under which the
build/resolve round trip can hold (the C7 counterexample violates it
with a slash inside a name). -/
inductive PathTo (s : FSState) : Nat → List CStr → Prop
  | root (r : Nat) (re : FileEntry) (hroot : s.root = some r)
      (hre : getE s r = some re) (hpar : re.parent = none) : PathTo s r []
  | step (p : Nat) (ns : List CStr) (i : Nat) (n : CStr) (pe e : FileEntry)
      (l : List Nat)
      (hp : PathTo s p ns)
      (hpe : getE s p = some pe) (hdir : pe.is_directory = true)
      (hch : SibChain s pe.child l) (hmem : i ∈ l)
      (hge : getE s i = some e) (hname : e.name = n) (hpar : e.parent = some p)
      (hne : n ≠ []) (hns : '/' ∉ n)
      (huniq : ∀ j ∈ l, ∀ je, getE s j = some je → je.name = n → j = i) :
      PathTo s i (ns ++ [n])

/-- The absolute path `build_path` produces for the segment list `ns`:
`/` for the root, otherwise the names each prefixed by a slash. -/
def render (ns : List CStr) : CStr :=
  match ns with
  | [] => ['/']
  | _ :: _ => ((ns.map (fun n => '/' :: n)).flatten)

/-- Well-foundedness of the name-directed descent `fs_tree` performs:
node `i` has a finite live sibling chain of children whose names are
nonempty and slash-free, and every directory child is again
well-founded at a strictly smaller bound.  The counterexample states
(a directory named `/`, an `mv`-created ownership cycle) admit no such
bound. -/
inductive TreeOk (s : FSState) : Nat → Nat → Prop
  | mk (i : Nat) (n : Nat) (e : FileEntry) (l : List Nat)
      (hge : getE s i = some e)
      (hch : SibChain s e.child l)
      (hlive : ∀ c ∈ l, ∃ ce, getE s c = some ce ∧ ce.name ≠ [] ∧ '/' ∉ ce.name)
      (hdirs : ∀ c ∈ l, ∀ ce, getE s c = some ce → ce.is_directory = true →
        TreeOk s c n) :
      TreeOk s i (n + 1)

/-- After `mkfs; ln -s / b`: the root's only child is a symbolic link
(entry 1, symbol kind 1, pointing at the root). -/
def stSymB : FSState := outState (fs_ln_s stRoot 10 (cs "/") (cs "b")) stRoot

/-- The root entry of `stRoot` (empty file system), spelled out for the
C8 witness. -/
def rootE0 : FileEntry :=
  { inode := 1, is_symbol := 0, origin := none, nom_origin := none,
    name := ['/'], is_directory := true, size := 0, content := none,
    link_count := 1, perms := 7, child := none, next := none, parent := none }

/-- The symbolic link `b` (entry 1) of `stSymB`, spelled out for the C8
witness. -/
def symBE : FileEntry :=
  { inode := 2, is_symbol := 1, origin := some 0, nom_origin := some ['/'],
    name := ['b'], is_directory := true, size := 0, content := none,
    link_count := 1, perms := 7, child := none, next := none, parent := some 0 }

/-- The root entry of `stDirA`, spelled out for the C7 witness. -/
def rootDirAE : FileEntry :=
  { inode := 1, is_symbol := 0, origin := none, nom_origin := none,
    name := ['/'], is_directory := true, size := 0, content := none,
    link_count := 1, perms := 7, child := some 1, next := none, parent := none }

/-- The directory `a` (index 1) of `stDirA`, spelled out for the C7
witness. -/
def dirAE : FileEntry :=
  { inode := 2, is_symbol := 0, origin := none, nom_origin := none,
    name := ['a'], is_directory := true, size := 0, content := none,
    link_count := 1, perms := 7, child := none, next := none, parent := some 0 }

/-- The file `f` (index 1) of `stFOpenC`, with its write bit revoked
after the open, spelled out for the C5 witness. -/
def eF4 : FileEntry :=
  { inode := 2, is_symbol := 0, origin := none, nom_origin := none,
    name := ['f'], is_directory := false, size := 100, content := some 0,
    link_count := 1, perms := 4, child := none, next := none, parent := some 0 }

/-! ### Lemmas and claim theorems -/

set_option maxRecDepth 10000

@[simp] theorem CR.bind_ok {α β : Type} (a : α) (f : α → CR β) :
    CR.bind (.ok a) f = f a := rfl

@[simp] theorem CR.bind_ub {α β : Type} (f : α → CR β) :
    CR.bind (.ub : CR α) f = .ub := rfl

@[simp] theorem CR.bind_fuelOut {α β : Type} (f : α → CR β) :
    CR.bind (.fuelOut : CR α) f = .fuelOut := rfl

theorem getE_lt {s : FSState} {i : Nat} {e : FileEntry} (h : getE s i = some e) :
    i < s.entries.length := by
  by_contra hn
  rw [getE, List.getD_eq_getElem?_getD, List.getElem?_eq_none (by omega)] at h
  simp at h

theorem getB_lt {s : FSState} {b : Nat} {v : CStr} (h : getB s b = some v) :
    b < s.buffers.length := by
  by_contra hn
  rw [getB, List.getD_eq_getElem?_getD, List.getElem?_eq_none (by omega)] at h
  simp at h

theorem getE_setE_self {s : FSState} {i : Nat} (e : FileEntry)
    (h : i < s.entries.length) : getE (setE s i e) i = some e := by
  simp [getE, setE, List.getD_eq_getElem?_getD, List.getElem?_set_self, h]

theorem getE_setE_ne {s : FSState} {i j : Nat} (e : FileEntry) (h : i ≠ j) :
    getE (setE s i e) j = getE s j := by
  simp [getE, setE, List.getD_eq_getElem?_getD, List.getElem?_set_ne h]

theorem getB_setB_self {s : FSState} {b : Nat} (v : CStr)
    (h : b < s.buffers.length) : getB (setB s b v) b = some v := by
  simp [getB, setB, List.getD_eq_getElem?_getD, List.getElem?_set_self, h]

theorem getB_setB_ne {s : FSState} {b b2 : Nat} (v : CStr) (h : b ≠ b2) :
    getB (setB s b v) b2 = getB s b2 := by
  simp [getB, setB, List.getD_eq_getElem?_getD, List.getElem?_set_ne h]

theorem getB_allocB {s : FSState} (v : CStr) :
    getB (allocB s v).1 (allocB s v).2 = some v := by
  simp [getB, allocB, List.getD_eq_getElem?_getD, List.getElem?_concat_length]

theorem getE_setB {s : FSState} {b : Nat} {v : CStr} {i : Nat} :
    getE (setB s b v) i = getE s i := rfl

theorem getE_freeB {s : FSState} {b i : Nat} :
    getE (freeB s b) i = getE s i := rfl

theorem getB_setE {s : FSState} {i : Nat} {e : FileEntry} {b : Nat} :
    getB (setE s i e) b = getB s b := rfl

/-- Claim C1 (code bug): after `ln a b`, a 5-byte write through the
descriptor opened on `a` stays inside the shared 101-byte buffer and IS
returned by `cat b`; but the 101-byte write grows the buffer, so
`fs_write` reallocates and stores the new buffer pointer only in entry
`a` — entry `b` keeps the old pointer (`some 0`), whose allocation
`realloc` has released (`getB … 0 = none`), and `cat b` dereferences
freed memory instead of returning the written bytes. -/
theorem c1_hardlink_growth_dangles :
    fs_ln stA 10 (cs "a") (cs "b") = .ok (stAB, .created)
    ∧ fs_open stAB 10 (cs "a") 2 = .ok (stOpen, .fd 3)
    ∧ fs_write stOpen 3 (cs "hello") = .ok (stSmallW, .written 5)
    ∧ fs_cat stSmallW 10 (cs "b") = .ok (stSmallW, .printed (cs "hello"))
    ∧ fs_write stOpen 3 bigData = .ok (stBigW, .written 101)
    ∧ (getE stBigW 1).map FileEntry.content = some (some 1)
    ∧ (getE stBigW 2).map FileEntry.content = some (some 0)
    ∧ getB stBigW 0 = none
    ∧ fs_cat stBigW 10 (cs "b") = .ub
    ∧ fs_cat stBigW 10 (cs "a") = .ok (stBigW, .printed bigData) := by
  decide

/-- Claim C2 (code bug): `fs_rm` on one hard-link name neither
decrements `link_count` (it stays 2 on the surviving entry `b`) nor
leaves the shared buffer alive: it frees the content buffer
unconditionally, so the later `cat b` reads freed memory instead of
succeeding. -/
theorem c2_rm_frees_shared_buffer :
    fs_ln stA 10 (cs "a") (cs "b") = .ok (stAB, .created)
    ∧ fs_rm stAB 10 (cs "a") = .ok (stRmA, .removed)
    ∧ (getE stRmA 2).map FileEntry.link_count = some 2
    ∧ (getE stRmA 2).map FileEntry.content = some (some 0)
    ∧ getB stRmA 0 = none
    ∧ fs_cat stRmA 10 (cs "b") = .ub := by
  decide

/-- Claim C3 (code bug): after `ln -s a b; rm a`, the symlink entry
still holds the live pointer `origin = some 1`, but entry 1 has been
freed; `fs_cat` on `b` dereferences `file->origin->parent` on that freed
pointer, which is undefined behavior, not a clean dangling-link
report. -/
theorem c3_dangling_symlink_uaf :
    fs_ln_s stA 10 (cs "a") (cs "b") = .ok (stSym, .created)
    ∧ fs_rm stSym 10 (cs "a") = .ok (stSymRm, .removed)
    ∧ (getE stSymRm 2).map FileEntry.origin = some (some 1)
    ∧ (getE stSymRm 2).map FileEntry.is_symbol = some 1
    ∧ getE stSymRm 1 = none
    ∧ fs_cat stSymRm 10 (cs "b") = .ub := by
  decide

/-- Claim C4 (code bug): in the spec scenario
`mkfs; mkdir a; touch a/f; write a/f hello; cat a/f`, `fs_touch` does
not resolve its argument as a path: it creates a ROOT child literally
named `a/f` and leaves directory `a` empty; `resolve_path` then fails on
`a/f`, and `fs_write_cmd` dereferences the `NULL` result
(`file->is_symbol`), which is undefined behavior — nothing prints
`hello`. -/
theorem c4_scenario_crashes :
    mkfs initState 5 = .ok stRoot
    ∧ fs_mkdir stRoot 10 (cs "a") = .ok (stDirA, .created)
    ∧ fs_touch stDirA 10 (cs "a/f") = .ok (stTouchAF, .created)
    ∧ (getE stTouchAF 2).map (fun e => (e.name, e.parent)) = some (cs "a/f", some 0)
    ∧ (getE stTouchAF 1).map FileEntry.child = some none
    ∧ resolve_path stTouchAF 10 (cs "a/f") = .ok (none, some 1)
    ∧ fs_write_cmd stTouchAF 10 (cs "a/f") (cs "hello") = .ub := by
  decide

/-- Claim C6 (code bug): `fs_mv` moves `x` onto the existing name `y`
without any destination-collision check, leaving the root directory with
two children that are both named `y` — the sibling-uniqueness invariant
is violated in a reachable state. -/
theorem c6_mv_duplicate_names :
    fs_touch stX 10 (cs "y") = .ok (stXY, .created)
    ∧ fs_mv stXY 10 (cs "x") (cs "y") = .ok (stMvXY, .moved)
    ∧ (getE stMvXY 0).map FileEntry.child = some (some 1)
    ∧ chain_names stMvXY 5 (some 1) = some [cs "y", cs "y"] := by
  decide

/-- Claim C7 counterexample: the entry created by `touch x/y` is a child
of the root (hence reachable), `build_path` renders it as `/x/y`, but
resolving `/x/y` tokenizes into `x` then `y` and FAILS — the
resolve/build round trip does not hold for every reachable entry. -/
theorem c7_roundtrip_counterexample :
    fs_touch stRoot 10 (cs "x/y") = .ok (stSlashY, .created)
    ∧ (getE stSlashY 1).map (fun e => (e.name, e.parent)) = some (cs "x/y", some 0)
    ∧ build_path stSlashY 10 1 = .ok (cs "/x/y")
    ∧ resolve_path stSlashY 10 (cs "/x/y") = .ok (none, some 0) := by
  decide

theorem pathTo_names {s : FSState} {i : Nat} {ns : List CStr}
    (h : PathTo s i ns) : ∀ n ∈ ns, n ≠ [] ∧ '/' ∉ n := by
  induction h with
  | root r re hroot hre hpar => intro n hn; cases hn
  | step p ns i n pe e l hp hpe hdir hch hmem hge hname hpar hne hns huniq ih =>
    intro m hm
    rcases List.mem_append.mp hm with hm | hm
    · exact ih m hm
    · rcases List.mem_singleton.mp hm with rfl
      exact ⟨hne, hns⟩

theorem pathTo_rootEx {s : FSState} {i : Nat} {ns : List CStr}
    (h : PathTo s i ns) : ∃ r, s.root = some r := by
  induction h with
  | root r re hroot hre hpar => exact ⟨r, hroot⟩
  | step p ns i n pe e l hp hpe hdir hch hmem hge hname hpar hne hns huniq ih =>
    exact ih

theorem render_ne_slash {ns : List CStr} (h : ns ≠ [])
    (hv : ∀ n ∈ ns, n ≠ [] ∧ '/' ∉ n) : render ns ≠ ['/'] := by
  cases ns with
  | nil => exact absurd rfl h
  | cons m rest =>
    have hm := (hv m (by simp)).1
    cases m with
    | nil => exact absurd rfl hm
    | cons c m2 =>
      intro hcon
      rw [render] at hcon
      simp at hcon

theorem render_append_one {ns : List CStr} (n : CStr) (h : ns ≠ []) :
    render (ns ++ [n]) = render ns ++ '/' :: n := by
  cases ns with
  | nil => exact absurd rfl h
  | cons m rest => simp [render]

theorem render_head (ns : List CStr) : ∃ t, render ns = '/' :: t := by
  cases ns with
  | nil => exact ⟨[], rfl⟩
  | cons m rest => exact ⟨m ++ (rest.map (fun x => '/' :: x)).flatten, by simp [render]⟩

theorem build_path_of_pathTo {s : FSState} {i : Nat} {ns : List CStr}
    (h : PathTo s i ns) :
    ∀ fuel, ns.length + 1 ≤ fuel → build_path s fuel i = .ok (render ns) := by
  induction h with
  | root r re hroot hre hpar =>
    intro fuel hf
    cases fuel with
    | zero => omega
    | succ f =>
      simp only [build_path]
      rw [hre]
      simp only []
      rw [hpar]
      rfl
  | step p ns i n pe e l hp hpe hdir hch hmem hge hname hpar hne hns huniq ih =>
    intro fuel hf
    simp only [List.length_append, List.length_singleton] at hf
    cases fuel with
    | zero => omega
    | succ f =>
      simp only [build_path]
      rw [hge]
      simp only []
      rw [hpar]
      simp only []
      rw [ih f (by omega), CR.bind_ok, hname]
      by_cases hnil : ns = []
      · subst hnil
        simp [render]
      · rw [if_neg (render_ne_slash hnil (fun m hm => pathTo_names hp m hm)),
          render_append_one n hnil]

theorem tokenize_aux_no_slash :
    ∀ (n : CStr), '/' ∉ n → ∀ rest acc,
      tokenize_aux (n ++ rest) acc = tokenize_aux rest (n.reverse ++ acc) := by
  intro n
  induction n with
  | nil => intro _ rest acc; simp
  | cons c n2 ih =>
    intro hslash rest acc
    have hc : c ≠ '/' := fun hcc => hslash (by simp [hcc])
    have h2 : '/' ∉ n2 := fun hin => hslash (List.mem_cons_of_mem _ hin)
    show tokenize_aux (c :: (n2 ++ rest)) acc = _
    rw [tokenize_aux, if_neg hc, ih h2 rest (c :: acc)]
    simp

theorem tokenize_aux_flatten :
    ∀ (ns : List CStr), (∀ n ∈ ns, n ≠ [] ∧ '/' ∉ n) → ∀ acc,
      tokenize_aux ((ns.map (fun n => '/' :: n)).flatten) acc =
        (if acc = [] then [] else [acc.reverse]) ++ ns := by
  intro ns
  induction ns with
  | nil => intro _ acc; simp [tokenize_aux]
  | cons m rest ih =>
    intro hv acc
    have hm := hv m (by simp)
    have hrest : ∀ n ∈ rest, n ≠ [] ∧ '/' ∉ n :=
      fun n hn => hv n (List.mem_cons_of_mem _ hn)
    have hflat : ((m :: rest).map (fun n => '/' :: n)).flatten
        = '/' :: (m ++ (rest.map (fun n => '/' :: n)).flatten) := by simp
    rw [hflat, tokenize_aux, if_pos rfl]
    by_cases hacc : acc = []
    · rw [if_pos hacc, if_pos hacc,
        tokenize_aux_no_slash m hm.2 _ [], List.append_nil,
        ih hrest m.reverse, if_neg (by simpa using hm.1)]
      simp
    · rw [if_neg hacc, if_neg hacc,
        tokenize_aux_no_slash m hm.2 _ [], List.append_nil,
        ih hrest m.reverse, if_neg (by simpa using hm.1)]
      simp

theorem tokenize_render {ns : List CStr}
    (hv : ∀ n ∈ ns, n ≠ [] ∧ '/' ∉ n) : tokenize (render ns) = ns := by
  cases ns with
  | nil => rfl
  | cons m rest =>
    rw [tokenize, render]
    rw [tokenize_aux_flatten (m :: rest) hv []]
    simp

theorem find_chain_of_chain {s : FSState} :
    ∀ {h : Option Nat} {l : List Nat}, SibChain s h l →
    ∀ {i : Nat} {e : FileEntry} {nm : CStr}, i ∈ l → getE s i = some e →
    e.name = nm →
    (∀ j ∈ l, ∀ je, getE s j = some je → je.name = nm → j = i) →
    ∀ fuel, l.length ≤ fuel → find_chain s fuel h nm = .ok (some i) := by
  intro h l hch
  induction hch with
  | nil => intro i e nm hmem; cases hmem
  | cons j l2 ej hgj hch2 ih =>
    intro i e nm hmem hge hname huniq fuel hf
    cases fuel with
    | zero => simp at hf
    | succ f =>
      rw [find_chain, hgj]
      simp only []
      by_cases hjn : ej.name = nm
      · rw [if_pos hjn, huniq j (by simp) ej hgj hjn]
      · rw [if_neg hjn]
        have hmem2 : i ∈ l2 := by
          rcases List.mem_cons.mp hmem with rfl | h2
          · rw [hge] at hgj
            cases hgj
            exact absurd hname hjn
          · exact h2
        exact ih hmem2 hge hname
          (fun j2 hj2 je hje hn => huniq j2 (List.mem_cons_of_mem _ hj2) je hje hn)
          f (by simp at hf; omega)

theorem resolve_loop_of_pathTo {s : FSState} {i : Nat} {ns : List CStr}
    (h : PathTo s i ns) :
    ∀ {r : Nat}, s.root = some r →
    ∃ N, ∀ fuel, N ≤ fuel → ∀ rest par,
      ∃ q, resolve_loop s fuel (some r) par (ns ++ rest) =
        resolve_loop s fuel (some i) q rest := by
  induction h with
  | root r0 re hroot hre hpar =>
    intro r hr
    rw [hroot] at hr
    cases hr
    exact ⟨0, fun fuel _ rest par => ⟨par, rfl⟩⟩
  | step p ns i n pe e l hp hpe hdir hch hmem hge hname hpar hne hns huniq ih =>
    intro r hr
    obtain ⟨N1, hN1⟩ := ih hr
    refine ⟨max N1 l.length, fun fuel hf rest par => ?_⟩
    obtain ⟨q1, hq1⟩ := hN1 fuel (le_trans (le_max_left _ _) hf) (n :: rest) par
    rw [List.append_assoc, List.singleton_append, hq1, resolve_loop]
    rw [find_entry, hpe]
    simp only []
    rw [if_pos hdir,
      find_chain_of_chain hch hmem hge hname huniq fuel
        (le_trans (le_max_right _ _) hf),
      CR.bind_ok]
    exact ⟨some p, rfl⟩

/-- Claim C7 amended: for every entry reachable from the root through
consistent parent/child links whose segment names are nonempty,
slash-free and unique among their siblings (`PathTo`), resolving the
path that `build_path` renders succeeds and yields THE SAME entry (so
the two `build_path`s trivially agree), with the root rendering as `/`;
the counterexample shows the original unrestricted claim fails for a
reachable entry whose name contains a slash. -/
theorem c7_roundtrip_amended {s : FSState} {i : Nat} {ns : List CStr}
    (h : PathTo s i ns) :
    ∃ N, ∀ fuel, N ≤ fuel →
      build_path s fuel i = .ok (render ns)
      ∧ ∃ q, resolve_path s fuel (render ns) = .ok (some i, q) := by
  obtain ⟨r, hroot⟩ := pathTo_rootEx h
  obtain ⟨N1, hN1⟩ := resolve_loop_of_pathTo h hroot
  refine ⟨max N1 (ns.length + 1), fun fuel hf =>
    ⟨build_path_of_pathTo h fuel (le_trans (le_max_right _ _) hf), ?_⟩⟩
  obtain ⟨t, ht⟩ := render_head ns
  obtain ⟨q, hq⟩ := hN1 fuel (le_trans (le_max_left _ _) hf) [] none
  refine ⟨q, ?_⟩
  have hsl : resolve_path s fuel (render ns) =
      resolve_loop s fuel s.root none (tokenize (render ns)) := by
    rw [ht]
    rfl
  rw [hsl, hroot, tokenize_render (pathTo_names h)]
  simp only [List.append_nil] at hq
  rw [hq]
  rfl

/-- Claim C7 amended-theorem witness: the round trip applied to the
entry `a` of the concrete state `mkfs; mkdir a`. -/
theorem c7_roundtrip_amended_witness :
    PathTo stDirA 1 [cs "a"]
    ∧ ∃ N, ∀ fuel, N ≤ fuel →
        build_path stDirA fuel 1 = .ok (render [cs "a"])
        ∧ ∃ q, resolve_path stDirA fuel (render [cs "a"]) = .ok (some 1, q) := by
  have hch : SibChain stDirA (some 1) [1] :=
    SibChain.cons 1 [] dirAE (by decide) SibChain.nil
  have hp : PathTo stDirA 1 [cs "a"] :=
    PathTo.step 0 [] 1 (cs "a") rootDirAE dirAE [1]
      (PathTo.root 0 rootDirAE (by decide) (by decide) (by decide))
      (by decide) (by decide) hch (by decide)
      (by decide) (by decide) (by decide) (by decide) (by decide)
      (fun j hj _ _ _ => by simpa using hj)
  exact ⟨hp, c7_roundtrip_amended hp⟩

theorem getE_congr {s1 s2 : FSState} (h : s1.entries = s2.entries) (i : Nat) :
    getE s1 i = getE s2 i := by
  rw [getE, getE, h]

theorem sibChain_congr {s1 s2 : FSState} (h : s1.entries = s2.entries) :
    ∀ {hd : Option Nat} {l : List Nat}, SibChain s1 hd l → SibChain s2 hd l := by
  intro hd l hch
  induction hch with
  | nil => exact SibChain.nil
  | cons i l2 e hg hch2 ih =>
    exact SibChain.cons i l2 e ((getE_congr h i).symm.trans hg) ih

theorem find_chain_stable {s : FSState} :
    ∀ {hd : Option Nat} {l : List Nat}, SibChain s hd l → ∀ nm : CStr,
    ∃ res : Option Nat, (res = none ∨ ∃ m, m ∈ l ∧ res = some m)
      ∧ ∀ fuel, l.length ≤ fuel → find_chain s fuel hd nm = .ok res := by
  intro hd l hch
  induction hch with
  | nil =>
    intro nm
    exact ⟨none, Or.inl rfl, fun fuel _ => by cases fuel <;> rfl⟩
  | cons i l2 e hg hch2 ih =>
    intro nm
    by_cases hn : e.name = nm
    · refine ⟨some i, Or.inr ⟨i, by simp, rfl⟩, fun fuel hf => ?_⟩
      cases fuel with
      | zero => simp at hf
      | succ f => rw [find_chain, hg]; simp only []; rw [if_pos hn]
    · obtain ⟨res, hres, hstable⟩ := ih nm
      refine ⟨res, ?_, fun fuel hf => ?_⟩
      · rcases hres with h1 | ⟨m, hm, h2⟩
        · exact Or.inl h1
        · exact Or.inr ⟨m, List.mem_cons_of_mem _ hm, h2⟩
      · cases fuel with
        | zero => simp at hf
        | succ f =>
          rw [find_chain, hg]
          simp only []
          rw [if_neg hn]
          exact hstable f (by simp at hf; omega)

theorem tokenize_single (n : CStr) (hne : n ≠ []) (hns : '/' ∉ n) :
    tokenize n = [n] := by
  have h := tokenize_aux_no_slash n hns [] []
  rw [List.append_nil, List.append_nil] at h
  rw [tokenize, h]
  simp only [tokenize_aux]
  rw [if_neg (by simpa using hne)]
  simp

theorem resolve_path_start_current (s : FSState) (fuel : Nat) (c : Char)
    (tl : CStr) (hc : c ≠ '/') :
    resolve_path s fuel (c :: tl) =
      resolve_loop s fuel s.current none (tokenize (c :: tl)) := by
  rw [resolve_path]
  rw [if_neg hc]

theorem treeOk_inv {s : FSState} {c n : Nat} (h : TreeOk s c n) :
    ∃ n2 e l, n = n2 + 1 ∧ getE s c = some e ∧ SibChain s e.child l ∧
      (∀ x ∈ l, ∃ ce, getE s x = some ce ∧ ce.name ≠ [] ∧ '/' ∉ ce.name) ∧
      (∀ x ∈ l, ∀ ce, getE s x = some ce → ce.is_directory = true →
        TreeOk s x n2) := by
  cases h with
  | mk i n e l hge hch hlive hdirs => exact ⟨n, e, l, rfl, hge, hch, hlive, hdirs⟩

theorem find_chain_congr {s1 s2 : FSState} (h : s1.entries = s2.entries) :
    ∀ (fuel : Nat) (hd : Option Nat) (nm : CStr),
      find_chain s1 fuel hd nm = find_chain s2 fuel hd nm := by
  intro fuel
  induction fuel with
  | zero => intro hd nm; cases hd <;> rfl
  | succ f ih =>
    intro hd nm
    cases hd with
    | none => rfl
    | some c =>
      rw [find_chain, find_chain, getE_congr h c]
      cases getE s2 c with
      | none => rfl
      | some ce =>
        simp only []
        by_cases hn : ce.name = nm
        · rw [if_pos hn, if_pos hn]
        · rw [if_neg hn, if_neg hn]
          exact ih ce.next nm

/-- Termination of the `fs_tree` child loop: if node `i` has a live
chain of valid-named children, every directory child being
`TreeOk`-bounded, then the walk over any suffix of the chain completes
with some fuel bound `F` uniform in the visiting state, leaving entries
and root untouched. -/
theorem tree_kids_term :
    ∀ (n : Nat) (s : FSState) (i : Nat) (e : FileEntry) (l0 : List Nat),
      getE s i = some e → SibChain s e.child l0 →
      (∀ c ∈ l0, ∃ ce, getE s c = some ce ∧ ce.name ≠ [] ∧ '/' ∉ ce.name) →
      (∀ c ∈ l0, ∀ ce, getE s c = some ce → ce.is_directory = true →
        TreeOk s c n) →
      ∀ (hd : Option Nat) (l : List Nat), SibChain s hd l →
      (∀ c ∈ l, c ∈ l0) →
      ∃ F, ∀ (s0 : FSState), s0.entries = s.entries → s0.root = s.root →
        ∀ ind fuel, F ≤ fuel →
        ∃ s2 ls, tree_run fuel s0 (.kids i hd ind) = .ok (s2, ls)
          ∧ s2.entries = s.entries ∧ s2.root = s.root := by
  intro n
  induction n using Nat.strong_induction_on with
  | _ n ihn =>
  intro s i e l0 hge hch0 hlive hdirs
  have htop : ∀ (nm : CStr), nm ≠ [] → '/' ∉ nm →
      ∃ F, ∀ (s0 : FSState), s0.entries = s.entries → s0.root = s.root →
        s0.current = some i →
        ∀ ind fuel, F ≤ fuel →
        ∃ s2 ls, tree_run fuel s0 (.top (some nm) ind) = .ok (s2, ls)
          ∧ s2.entries = s.entries ∧ s2.root = s.root := by
    intro nm hne hns
    obtain ⟨ch, tl, rfl⟩ : ∃ ch tl, nm = ch :: tl := by
      cases nm with
      | nil => exact absurd rfl hne
      | cons ch tl => exact ⟨ch, tl, rfl⟩
    have hchs : ch ≠ '/' := fun hcc => hns (by rw [hcc]; simp)
    -- common evaluation of the resolve step, given the find result
    have hresolve : ∀ (s0 : FSState), s0.entries = s.entries →
        s0.current = some i → ∀ fuel res,
        (e.is_directory = true →
          find_chain s fuel e.child (ch :: tl) = .ok res) →
        (e.is_directory = false → res = none) →
        resolve_path s0 fuel (ch :: tl) = .ok (res, some i) := by
      intro s0 hent hcur fuel res hfind hnotdir
      rw [resolve_path_start_current s0 fuel ch tl hchs, hcur,
        tokenize_single (ch :: tl) hne hns, resolve_loop, find_entry,
        (getE_congr hent i).trans hge]
      simp only []
      by_cases hdire : e.is_directory = true
      · rw [if_pos hdire, find_chain_congr hent, hfind hdire, CR.bind_ok]
        cases res with
        | none => rfl
        | some m => rfl
      · rw [if_neg hdire,
          hnotdir (by revert hdire; cases e.is_directory <;> simp)]
        rfl
    by_cases hdire : e.is_directory = true
    · obtain ⟨res, hresopt, hstable⟩ := find_chain_stable hch0 (ch :: tl)
      rcases hresopt with rfl | ⟨m, hm, rfl⟩
      · -- name not found among the children: empty listing, state kept
        refine ⟨l0.length + 1, fun s0 hent hroot hcur ind fuel hf => ?_⟩
        cases fuel with
        | zero => omega
        | succ f =>
          have hres := hresolve s0 hent hcur (f + 1) none
            (fun _ => hstable (f + 1) (by omega)) (fun _ => rfl)
          refine ⟨s0, [], ?_, hent, hroot⟩
          have hstep : tree_run (f + 1) s0 (.top (some (ch :: tl)) ind) =
              CR.bind ((resolve_path s0 (f + 1) (ch :: tl)).bind fun r =>
                .ok r.1) (fun co =>
                  match co with
                  | none => .ok (s0, [])
                  | some c =>
                    match getE s0 c with
                    | none => .ub
                    | some ce =>
                      if (some (ch :: tl)).isSome ∧ ¬ ce.is_directory then
                        .ok (s0, [(ind, c)])
                      else
                        (tree_run f s0 (.kids c ce.child ind)).bind fun q =>
                          .ok ({ q.1 with current := some c },
                            (ind, c) :: q.2)) := rfl
          rw [hstep, hres]
          rfl
      · -- the name resolves to chain member m
        obtain ⟨me, hgem, hnem, hnsm⟩ := hlive m hm
        by_cases hmd : me.is_directory = true
        · have hTO := hdirs m hm me hgem hmd
          obtain ⟨n2, e2, l2, hn2, hge2, hch2, hlive2, hdirs2⟩ := treeOk_inv hTO
          have hee : e2 = me := by
            rw [hgem] at hge2; cases hge2; rfl
          subst hee
          obtain ⟨Fm, hFm⟩ := ihn n2 (by omega) s m e2 l2 hge2 hch2 hlive2
            hdirs2 e2.child l2 hch2 (fun x hx => hx)
          refine ⟨max (Fm + 1) (l0.length + 1), fun s0 hent hroot hcur ind fuel hf => ?_⟩
          cases fuel with
          | zero => omega
          | succ f =>
            have hres := hresolve s0 hent hcur (f + 1) (some m)
              (fun _ => hstable (f + 1) (by omega))
              (fun hfalse => by rw [hfalse] at hdire; cases hdire)
            obtain ⟨sA, lsA, hrunA, heA, hrA⟩ :=
              hFm s0 hent hroot ind f (by omega)
            refine ⟨{ sA with current := some m }, (ind, m) :: lsA, ?_, heA, hrA⟩
            have hstep : tree_run (f + 1) s0 (.top (some (ch :: tl)) ind) =
                CR.bind ((resolve_path s0 (f + 1) (ch :: tl)).bind fun r =>
                  .ok r.1) (fun co =>
                    match co with
                    | none => .ok (s0, [])
                    | some c =>
                      match getE s0 c with
                      | none => .ub
                      | some ce =>
                        if (some (ch :: tl)).isSome ∧ ¬ ce.is_directory then
                          .ok (s0, [(ind, c)])
                        else
                          (tree_run f s0 (.kids c ce.child ind)).bind fun q =>
                            .ok ({ q.1 with current := some c },
                              (ind, c) :: q.2)) := rfl
            rw [hstep, hres]
            simp only [CR.bind_ok]
            rw [(getE_congr hent m).trans hgem]
            simp only []
            rw [if_neg (fun hcon => hcon.2 hmd), hrunA]
            rfl
        · -- m is not a directory: printed on one line, no recursion
          refine ⟨l0.length + 1, fun s0 hent hroot hcur ind fuel hf => ?_⟩
          cases fuel with
          | zero => omega
          | succ f =>
            have hres := hresolve s0 hent hcur (f + 1) (some m)
              (fun _ => hstable (f + 1) (by omega))
              (fun hfalse => by rw [hfalse] at hdire; cases hdire)
            refine ⟨s0, [(ind, m)], ?_, hent, hroot⟩
            have hstep : tree_run (f + 1) s0 (.top (some (ch :: tl)) ind) =
                CR.bind ((resolve_path s0 (f + 1) (ch :: tl)).bind fun r =>
                  .ok r.1) (fun co =>
                    match co with
                    | none => .ok (s0, [])
                    | some c =>
                      match getE s0 c with
                      | none => .ub
                      | some ce =>
                        if (some (ch :: tl)).isSome ∧ ¬ ce.is_directory then
                          .ok (s0, [(ind, c)])
                        else
                          (tree_run f s0 (.kids c ce.child ind)).bind fun q =>
                            .ok ({ q.1 with current := some c },
                              (ind, c) :: q.2)) := rfl
            rw [hstep, hres]
            simp only [CR.bind_ok]
            rw [(getE_congr hent m).trans hgem]
            simp only []
            rw [if_pos ⟨rfl, by simp [hmd]⟩]
    · -- the listed node is not a directory: resolution finds nothing
      refine ⟨1, fun s0 hent hroot hcur ind fuel hf => ?_⟩
      cases fuel with
      | zero => omega
      | succ f =>
        have hres := hresolve s0 hent hcur (f + 1) none
          (fun hcon => absurd hcon hdire) (fun _ => rfl)
        refine ⟨s0, [], ?_, hent, hroot⟩
        have hstep : tree_run (f + 1) s0 (.top (some (ch :: tl)) ind) =
            CR.bind ((resolve_path s0 (f + 1) (ch :: tl)).bind fun r =>
              .ok r.1) (fun co =>
                match co with
                | none => .ok (s0, [])
                | some c =>
                  match getE s0 c with
                  | none => .ub
                  | some ce =>
                    if (some (ch :: tl)).isSome ∧ ¬ ce.is_directory then
                      .ok (s0, [(ind, c)])
                    else
                      (tree_run f s0 (.kids c ce.child ind)).bind fun q =>
                        .ok ({ q.1 with current := some c },
                          (ind, c) :: q.2)) := rfl
        rw [hstep, hres]
        rfl
  intro hd l hsub
  induction hsub with
  | nil =>
    intro _
    refine ⟨1, fun s0 hent hroot ind fuel hf => ?_⟩
    cases fuel with
    | zero => omega
    | succ f => exact ⟨s0, [], rfl, hent, hroot⟩
  | cons c l2 ce2 hgc hch2 ih2 =>
    intro hsubset
    have hc0 : c ∈ l0 := hsubset c (by simp)
    obtain ⟨ce, hgec, hnec, hnsc⟩ := hlive c hc0
    have hceq : ce2 = ce := by rw [hgec] at hgc; cases hgc; rfl
    subst hceq
    obtain ⟨F2, hF2⟩ := ih2 (fun x hx => hsubset x (List.mem_cons_of_mem _ hx))
    by_cases hsym : ce2.is_symbol ≠ 0
    · refine ⟨F2 + 1, fun s0 hent hroot ind fuel hf => ?_⟩
      cases fuel with
      | zero => omega
      | succ f =>
        obtain ⟨s2, ls, hrun, he2, hr2⟩ := hF2 s0 hent hroot ind f (by omega)
        refine ⟨s2, (ind + 1, c) :: ls, ?_, he2, hr2⟩
        have hstep : tree_run (f + 1) s0 (.kids i (some c) ind) =
            match getE s0 c with
            | none => .ub
            | some che =>
              if che.is_symbol ≠ 0 then
                (tree_run f s0 (.kids i che.next ind)).bind fun q =>
                  .ok (q.1, (ind + 1, c) :: q.2)
              else if che.is_directory then
                (tree_run f { s0 with current := some i }
                    (.top (some che.name) (ind + 1))).bind fun q1 =>
                  (tree_run f q1.1 (.kids i che.next ind)).bind fun q2 =>
                    .ok (q2.1, q1.2 ++ q2.2)
              else
                (tree_run f s0 (.kids i che.next ind)).bind fun q =>
                  .ok (q.1, (ind + 1, c) :: q.2) := rfl
        rw [hstep, (getE_congr hent c).trans hgec]
        simp only []
        rw [if_pos hsym, hrun]
        rfl
    · obtain ⟨Ft, hFt⟩ := htop ce2.name hnec hnsc
      by_cases hdirc : ce2.is_directory = true
      · refine ⟨max Ft F2 + 1, fun s0 hent hroot ind fuel hf => ?_⟩
        cases fuel with
        | zero => omega
        | succ f =>
          obtain ⟨sA, lsA, hrunA, heA, hrA⟩ := hFt { s0 with current := some i }
            hent hroot rfl (ind + 1) f (by omega)
          obtain ⟨sB, lsB, hrunB, heB, hrB⟩ := hF2 sA heA hrA ind f (by omega)
          refine ⟨sB, lsA ++ lsB, ?_, heB, hrB⟩
          have hstep : tree_run (f + 1) s0 (.kids i (some c) ind) =
              match getE s0 c with
              | none => .ub
              | some che =>
                if che.is_symbol ≠ 0 then
                  (tree_run f s0 (.kids i che.next ind)).bind fun q =>
                    .ok (q.1, (ind + 1, c) :: q.2)
                else if che.is_directory then
                  (tree_run f { s0 with current := some i }
                      (.top (some che.name) (ind + 1))).bind fun q1 =>
                    (tree_run f q1.1 (.kids i che.next ind)).bind fun q2 =>
                      .ok (q2.1, q1.2 ++ q2.2)
                else
                  (tree_run f s0 (.kids i che.next ind)).bind fun q =>
                    .ok (q.1, (ind + 1, c) :: q.2) := rfl
          rw [hstep, (getE_congr hent c).trans hgec]
          simp only []
          rw [if_neg hsym, if_pos hdirc, hrunA]
          simp only [CR.bind_ok]
          rw [hrunB]
          rfl
      · refine ⟨F2 + 1, fun s0 hent hroot ind fuel hf => ?_⟩
        cases fuel with
        | zero => omega
        | succ f =>
          obtain ⟨s2, ls, hrun, he2, hr2⟩ := hF2 s0 hent hroot ind f (by omega)
          refine ⟨s2, (ind + 1, c) :: ls, ?_, he2, hr2⟩
          have hstep : tree_run (f + 1) s0 (.kids i (some c) ind) =
              match getE s0 c with
              | none => .ub
              | some che =>
                if che.is_symbol ≠ 0 then
                  (tree_run f s0 (.kids i che.next ind)).bind fun q =>
                    .ok (q.1, (ind + 1, c) :: q.2)
                else if che.is_directory then
                  (tree_run f { s0 with current := some i }
                      (.top (some che.name) (ind + 1))).bind fun q1 =>
                    (tree_run f q1.1 (.kids i che.next ind)).bind fun q2 =>
                      .ok (q2.1, q1.2 ++ q2.2)
                else
                  (tree_run f s0 (.kids i che.next ind)).bind fun q =>
                    .ok (q.1, (ind + 1, c) :: q.2) := rfl
          rw [hstep, (getE_congr hent c).trans hgec]
          simp only []
          rw [if_neg hsym, if_neg hdirc, hrun]
          rfl

/-- Claim C8 amended: the recursive `tree` terminates on every state in
which the name-directed directory descent is well-founded (`TreeOk`:
finite live sibling chains, nonempty slash-free child names, directory
children bounded), and a pass over a chain of symbolic-link children
prints exactly one line per link, recurses into none of them, and
leaves the state untouched.  Unconditional termination is refuted by
the counterexample (`mkdir /` makes the descent revisit the root). -/
theorem c8_tree_termination_amended :
    (∀ (n : Nat) (s : FSState) (i : Nat), TreeOk s i n → s.current = some i →
      ∃ F, ∀ fuel, F ≤ fuel → ∃ s2 ls, fs_tree fuel s none 0 = .ok (s2, ls))
    ∧ (∀ (s : FSState) (i : Nat) (hd : Option Nat) (l : List Nat) (ind : Nat),
        SibChain s hd l →
        (∀ c ∈ l, ∃ ce, getE s c = some ce ∧ ce.is_symbol ≠ 0) →
        ∀ fuel, l.length + 1 ≤ fuel →
        tree_run fuel s (.kids i hd ind) =
          .ok (s, l.map (fun c => (ind + 1, c)))) := by
  constructor
  · intro n s i hTO hcur
    obtain ⟨n2, e, l, hn2, hge, hch, hlive, hdirs⟩ := treeOk_inv hTO
    obtain ⟨F, hF⟩ := tree_kids_term n2 s i e l hge hch hlive hdirs e.child l
      hch (fun x hx => hx)
    refine ⟨F + 1, fun fuel hf => ?_⟩
    cases fuel with
    | zero => omega
    | succ f =>
      obtain ⟨s2, ls, hrun, he2, hr2⟩ := hF s rfl rfl 0 f (by omega)
      refine ⟨{ s2 with current := some i }, (0, i) :: ls, ?_⟩
      have hstep : fs_tree (f + 1) s none 0 =
          CR.bind (match s.current with
            | none => CR.ub
            | some c => CR.ok (some c) : CR (Option Nat)) (fun co =>
              match co with
              | none => .ok (s, [])
              | some c =>
                match getE s c with
                | none => .ub
                | some ce =>
                  if (none : Option CStr).isSome ∧ ¬ ce.is_directory then
                    .ok (s, [(0, c)])
                  else
                    (tree_run f s (.kids c ce.child 0)).bind fun q =>
                      .ok ({ q.1 with current := some c }, (0, c) :: q.2)) := rfl
      rw [hstep, hcur]
      simp only [CR.bind_ok]
      rw [hge]
      simp only []
      rw [if_neg (by simp), hrun]
      rfl
  · intro s i hd l ind hch
    induction hch with
    | nil =>
      intro _ fuel hf
      cases fuel with
      | zero => omega
      | succ f => rfl
    | cons c l2 ce hgc hch2 ih =>
      intro hsym fuel hf
      obtain ⟨ce2, hgc2, hs2⟩ := hsym c (by simp)
      have hceq : ce2 = ce := by rw [hgc] at hgc2; cases hgc2; rfl
      subst hceq
      cases fuel with
      | zero => omega
      | succ f =>
        have hstep : tree_run (f + 1) s (.kids i (some c) ind) =
            match getE s c with
            | none => .ub
            | some che =>
              if che.is_symbol ≠ 0 then
                (tree_run f s (.kids i che.next ind)).bind fun q =>
                  .ok (q.1, (ind + 1, c) :: q.2)
              else if che.is_directory then
                (tree_run f { s with current := some i }
                    (.top (some che.name) (ind + 1))).bind fun q1 =>
                  (tree_run f q1.1 (.kids i che.next ind)).bind fun q2 =>
                    .ok (q2.1, q1.2 ++ q2.2)
              else
                (tree_run f s (.kids i che.next ind)).bind fun q =>
                  .ok (q.1, (ind + 1, c) :: q.2) := rfl
        rw [hstep, hgc]
        simp only []
        rw [if_pos hs2,
          ih (fun x hx => hsym x (List.mem_cons_of_mem _ hx)) f
            (by simp at hf ⊢; omega)]
        rfl

/-- Claim C8 amended-theorem witness: the termination theorem applied
to the freshly formatted file system (bare `tree` completes), and the
symlink-pass theorem applied to `mkfs; ln -s / b`, whose root chain is
the single symbolic link entry 1 — one line, no recursion, state
unchanged. -/
theorem c8_tree_termination_amended_witness :
    TreeOk stRoot 0 1
    ∧ (∃ F, ∀ fuel, F ≤ fuel →
        ∃ s2 ls, fs_tree fuel stRoot none 0 = .ok (s2, ls))
    ∧ tree_run 2 stSymB (.kids 0 (some 1) 0) = .ok (stSymB, [(1, 1)]) := by
  have hTO : TreeOk stRoot 0 1 :=
    TreeOk.mk 0 0 rootE0 [] (by decide) SibChain.nil
      (fun c hc => absurd hc (List.not_mem_nil c))
      (fun c hc => absurd hc (List.not_mem_nil c))
  refine ⟨hTO, c8_tree_termination_amended.1 1 stRoot 0 hTO (by decide), ?_⟩
  have hch : SibChain stSymB (some 1) [1] :=
    SibChain.cons 1 [] symBE (by decide) SibChain.nil
  exact c8_tree_termination_amended.2 stSymB 0 (some 1) [1] 0 hch
    (fun c hc => by
      rw [List.mem_singleton] at hc
      subst hc
      exact ⟨symBE, by decide, by decide⟩) 2 (by decide)

/-- Helper for the C8 counterexample: in the `mkdir /` state, both the
`fs_tree` body invoked on the path `/` and the child loop of the root
exhaust ANY amount of fuel: resolving the child's name `/` starts back
at the root, so the name-directed descent revisits the root forever. -/
theorem tree_slash_runs_forever :
    ∀ fuel, (∀ ind, tree_run fuel stSlashDir (.top (some ['/']) ind) = .fuelOut)
      ∧ (∀ ind, tree_run fuel stSlashDir (.kids 0 (some 1) ind) = .fuelOut) := by
  intro fuel
  induction fuel with
  | zero => exact ⟨fun _ => rfl, fun _ => rfl⟩
  | succ k ih =>
    constructor
    · intro ind
      have hstep : tree_run (k + 1) stSlashDir (.top (some ['/']) ind) =
          CR.bind (tree_run k stSlashDir (.kids 0 (some 1) ind))
            (fun q => .ok ({ q.1 with current := some 0 }, (ind, 0) :: q.2)) := rfl
      rw [hstep, ih.2 ind]
      rfl
    · intro ind
      have hstep : tree_run (k + 1) stSlashDir (.kids 0 (some 1) ind) =
          CR.bind (tree_run k stSlashDir (.top (some ['/']) (ind + 1)))
            (fun q1 => CR.bind (tree_run k q1.1 (.kids 0 none ind))
              (fun q2 => .ok (q2.1, q1.2 ++ q2.2))) := rfl
      rw [hstep, ih.1 (ind + 1)]
      rfl

/-- Claim C8 counterexample: the reachable state `mkfs; mkdir /`
contains an ordinary (non-symlink) directory child named `/`; `tree`
descends into directory children by re-resolving their NAMES, and the
name `/` resolves back to the root, so the bare `tree` command loops
forever — it does not terminate on every reachable state. -/
theorem c8_tree_divergence_counterexample :
    fs_mkdir stRoot 10 (cs "/") = .ok (stSlashDir, .created)
    ∧ treeDiverges stSlashDir none 0 := by
  refine ⟨by decide, ?_⟩
  intro fuel
  cases fuel with
  | zero => rfl
  | succ k =>
    have hstep : fs_tree (k + 1) stSlashDir none 0 =
        CR.bind (tree_run k stSlashDir (.kids 0 (some 1) 0))
          (fun q => .ok ({ q.1 with current := some 0 }, (0, 0) :: q.2)) := rfl
    rw [hstep, (tree_slash_runs_forever k).2 0]
    rfl

/-- Claim C9 counterexample: from the root, `tree a` completes
successfully but leaves `current` pointing at `a` (entry 1), not at the
root it pointed to before the call — the repointing is NOT undone when
`tree` is invoked with a path argument. -/
theorem c9_tree_current_counterexample :
    stDirA.current = some 0
    ∧ fs_tree 10 stDirA (some (cs "a")) 0 =
        .ok ({ stDirA with current := some 1 }, [(0, 1)])
    ∧ ({ stDirA with current := some 1 } : FSState).current ≠ stDirA.current := by
  decide

/-- Claim C9 (corrected): when `tree` completes, `current` is left at
the directory the TRAVERSAL TARGETED, not at its prior value.  With no
argument the target is `current` itself, so the cursor is unchanged;
with a path argument that resolves to a directory `i`, the cursor ends
at `i` (the counterexample shows this differs from the prior value);
an unresolvable or non-directory argument leaves the state untouched. -/
theorem c9_tree_current_amended :
    (∀ (f : Nat) (s : FSState) (ind : Nat) (s2 : FSState) (ls : List (Nat × Nat)),
      fs_tree (f + 1) s none ind = .ok (s2, ls) → s2.current = s.current)
    ∧ (∀ (f : Nat) (s : FSState) (a : CStr) (ind : Nat) (s2 : FSState)
        (ls : List (Nat × Nat)),
      fs_tree (f + 1) s (some a) ind = .ok (s2, ls) →
      (∃ q, resolve_path s (f + 1) a = .ok (none, q) ∧ s2 = s)
      ∨ (∃ i q e, resolve_path s (f + 1) a = .ok (some i, q) ∧ getE s i = some e
          ∧ ((e.is_directory = false ∧ s2 = s)
             ∨ (e.is_directory = true ∧ s2.current = some i)))) := by
  constructor
  · intro f s ind s2 ls h
    unfold fs_tree tree_run at h
    cases hc : s.current with
    | none =>
      rw [hc] at h
      simp only [CR.bind_ub] at h
      exact absurd h (by simp)
    | some c =>
      rw [hc] at h
      simp only [CR.bind_ok] at h
      cases hg : getE s c with
      | none => rw [hg] at h; exact absurd h (by simp)
      | some ce =>
        rw [hg] at h
        simp only [] at h
        rw [if_neg (by simp)] at h
        cases hk : tree_run f s (.kids c ce.child ind) with
        | ok q =>
          rw [hk] at h
          simp only [CR.bind_ok] at h
          cases h
          rfl
        | ub => rw [hk] at h; exact absurd h (by simp)
        | fuelOut => rw [hk] at h; exact absurd h (by simp)
  · intro f s a ind s2 ls h
    unfold fs_tree tree_run at h
    simp only [] at h
    cases hr : resolve_path s (f + 1) a with
    | ok r =>
      rw [hr] at h
      simp only [CR.bind_ok] at h
      obtain ⟨r1, r2⟩ := r
      cases hr1 : r1 with
      | none =>
        rw [hr1] at h hr
        simp only [CR.bind_ok] at h
        cases h
        exact Or.inl ⟨r2, rfl, rfl⟩
      | some i =>
        rw [hr1] at h hr
        simp only [CR.bind_ok] at h
        cases hg : getE s i with
        | none => rw [hg] at h; exact absurd h (by simp)
        | some e =>
          rw [hg] at h
          simp only [] at h
          by_cases hd : e.is_directory
          · rw [if_neg (fun hcon => hcon.2 hd)] at h
            cases hk : tree_run f s (.kids i e.child ind) with
            | ok q =>
              rw [hk] at h
              simp only [CR.bind_ok] at h
              cases h
              exact Or.inr ⟨i, r2, e, rfl, hg, Or.inr ⟨hd, rfl⟩⟩
            | ub => rw [hk] at h; exact absurd h (by simp)
            | fuelOut => rw [hk] at h; exact absurd h (by simp)
          · rw [if_pos ⟨by simp, hd⟩] at h
            cases h
            exact Or.inr ⟨i, r2, e, rfl, hg,
              Or.inl ⟨by simpa using hd, rfl⟩⟩
    | ub =>
      rw [hr] at h
      simp only [CR.bind_ub] at h
      exact absurd h (by simp)
    | fuelOut =>
      rw [hr] at h
      simp only [CR.bind_fuelOut] at h
      exact absurd h (by simp)

/-- Claim C9 amended-theorem witness: applied to the counterexample
state — `tree a` from the root ends with `current = some 1`, the
resolved target directory. -/
theorem c9_tree_current_amended_witness :
    fs_tree 10 stDirA (some (cs "a")) 0 =
      .ok ({ stDirA with current := some 1 }, [(0, 1)])
    ∧ (({ stDirA with current := some 1 } : FSState).current = some 1
       ∨ (∃ q, resolve_path stDirA 10 (cs "a") = .ok (none, q)
            ∧ ({ stDirA with current := some 1 } : FSState) = stDirA)
       ∨ ∃ i q e, resolve_path stDirA 10 (cs "a") = .ok (some i, q)
            ∧ getE stDirA i = some e
            ∧ ((e.is_directory = false
                ∧ ({ stDirA with current := some 1 } : FSState) = stDirA)
               ∨ (e.is_directory = true
                ∧ ({ stDirA with current := some 1 } : FSState).current = some i))) :=
  ⟨by decide,
   Or.inr (c9_tree_current_amended.2 9 stDirA (cs "a") 0
     { stDirA with current := some 1 } [(0, 1)] (by decide))⟩

/-- Claim C10 (confirmed): `fs_chmod` overwrites the `perms` field of
exactly the entry the path resolves to and leaves every other heap slot
untouched, so hard links keep per-name permission bits; concretely,
after `touch a; ln a b; chmod 4 a`, `a` has bits 4 and `b` still has
bits 6 while the two names still share content buffer 0, `open("b", 2)`
succeeds and `open("a", 2)` is refused for writing. -/
theorem c10_chmod_per_name :
    (∀ (s : FSState) (fuel : Nat) (path : CStr) (perm : Int) (i : Nat)
        (q : Option Nat) (e : FileEntry),
      resolve_path s fuel path = .ok (some i, q) →
      getE s i = some e →
      ¬ (e.is_symbol = 1 ∨ e.is_symbol = 2) →
      -1 < perm → perm < 8 →
      fs_chmod s fuel perm path =
        .ok (setE s i { e with perms := perm.toNat }, .changed perm)
      ∧ ∀ j, j ≠ i → getE (setE s i { e with perms := perm.toNat }) j = getE s j)
    ∧ fs_chmod stAB 10 4 (cs "a") = .ok (stChmodA, .changed 4)
    ∧ (getE stChmodA 1).map FileEntry.perms = some 4
    ∧ (getE stChmodA 2).map FileEntry.perms = some 6
    ∧ (getE stChmodA 1).map FileEntry.content = some (some 0)
    ∧ (getE stChmodA 2).map FileEntry.content = some (some 0)
    ∧ fs_open stChmodA 10 (cs "b") 2 =
        .ok ({ stChmodA with
               open_files := [{ fd := 3, file := 2, flags := 2, offset := 0 }],
               next_fd := 4 }, .fd 3)
    ∧ fs_open stChmodA 10 (cs "a") 2 = .ok (stChmodA, .permWrite) := by
  refine ⟨?_, by decide, by decide, by decide, by decide, by decide, by decide, by decide⟩
  intro s fuel path perm i q e hres hget hsym h1 h2
  constructor
  · unfold fs_chmod
    rw [hres, CR.bind_ok]
    simp only []
    rw [hget]
    simp only []
    rw [if_neg hsym, if_pos ⟨h1, h2⟩]
  · intro j hj
    exact getE_setE_ne _ (Ne.symm hj)

theorem cstrlen_le (d : CStr) : cstrlen d ≤ d.length := by
  unfold cstrlen cstr_out
  exact (List.takeWhile_sublist _).length_le

theorem memset_zero_spec {buf : CStr} {lo hi : Nat} (h1 : lo ≤ hi)
    (h2 : hi ≤ buf.length) :
    memset_zero buf lo hi =
      some (buf.take lo ++ List.replicate (hi - lo) nulChar ++ buf.drop hi)
    ∧ (buf.take lo ++ List.replicate (hi - lo) nulChar ++ buf.drop hi).length
        = buf.length := by
  constructor
  · rw [memset_zero, if_pos ⟨h1, h2⟩]
  · simp only [List.length_append, List.length_take, List.length_replicate,
      List.length_drop]
    omega

theorem memcpy_at_spec {buf src : CStr} {off : Nat}
    (h : off + src.length ≤ buf.length) :
    memcpy_at buf off src =
      some (buf.take off ++ src ++ buf.drop (off + src.length))
    ∧ (buf.take off ++ src ++ buf.drop (off + src.length)).length = buf.length := by
  constructor
  · rw [memcpy_at, if_pos h]
  · simp only [List.length_append, List.length_take, List.length_drop]
    omega

/-- Claim C5 (confirmed): `fs_write(fd, data)` fails exactly on an
unknown descriptor, a mode that excludes writing, or an absent write bit
checked at write time — and each failure returns with the state (hence
every file's content and size) unchanged; with all three conditions
ruled out (and the descriptor denoting a live file whose buffer is the
usual `size + 1` allocation, the cursor within bounds) the write
succeeds.  The concrete conjuncts replay both spec scenarios: `touch f;
chmod 4 f; write f x` is refused as PermissionDenied at open time, and
revoking the bit AFTER a legal open still makes the later `fs_write`
fail, because the bit is re-checked at write time. -/
theorem c5_write_failure_conditions (s : FSState) (fd : Nat) (data : CStr) :
    (s.open_files.find? (fun x => x.fd = fd) = none →
      fs_write s fd data = .ok (s, .badFd))
    ∧ (∀ o, s.open_files.find? (fun x => x.fd = fd) = some o →
        ¬ (o.flags = 2 ∨ o.flags = 3) →
        fs_write s fd data = .ok (s, .notWritable))
    ∧ (∀ o e, s.open_files.find? (fun x => x.fd = fd) = some o →
        (o.flags = 2 ∨ o.flags = 3) →
        getE s o.file = some e → e.perms &&& 2 = 0 →
        fs_write s fd data = .ok (s, .permDenied))
    ∧ (∀ o e b buf, s.open_files.find? (fun x => x.fd = fd) = some o →
        (o.flags = 2 ∨ o.flags = 3) →
        getE s o.file = some e → e.perms &&& 2 ≠ 0 →
        e.content = some b → getB s b = some buf →
        buf.length = e.size + 1 → o.offset ≤ e.size →
        ∃ s2, fs_write s fd data = .ok (s2, .written (cstrlen data)))
    ∧ fs_chmod stF 10 4 (cs "f") = .ok (stF4, .changed 4)
    ∧ fs_open stF4 10 (cs "f") 2 = .ok (stF4, .permWrite)
    ∧ fs_write_cmd stF4 10 (cs "f") (cs "x") = .ok (stF4, .openFailed)
    ∧ fs_open stF 10 (cs "f") 2 = .ok (stFOpen, .fd 3)
    ∧ fs_chmod stFOpen 10 4 (cs "f") = .ok (stFOpenC, .changed 4)
    ∧ fs_write stFOpenC 3 (cs "x") = .ok (stFOpenC, .permDenied) := by
  refine ⟨?_, ?_, ?_, ?_, by decide, by decide, by decide, by decide, by decide,
    by decide⟩
  · intro hnone
    unfold fs_write
    rw [hnone]
  · intro o hfind hflags
    unfold fs_write
    rw [hfind]
    simp only []
    rw [if_pos hflags]
  · intro o e hfind hflags hget hperm
    unfold fs_write
    rw [hfind]
    simp only []
    rw [if_neg (not_not_intro hflags), hget]
    simp only []
    rw [if_pos hperm]
  · intro o e b buf hfind hflags hget hperm hcont hbuf hlen hoff
    unfold fs_write
    rw [hfind]
    simp only []
    rw [if_neg (not_not_intro hflags), hget]
    simp only []
    rw [if_neg hperm]
    have htake : (data.take (cstrlen data)).length = cstrlen data := by
      have h0 := cstrlen_le data
      simp only [List.length_take]
      omega
    by_cases hgrow : o.offset + cstrlen data > e.size
    · rw [if_pos hgrow, hcont]
      have hre : realloc_grow s (some b) (o.offset + cstrlen data + 1) =
          .ok (allocB (freeB s b)
            (buf.take (o.offset + cstrlen data + 1) ++
              List.replicate ((o.offset + cstrlen data + 1) - buf.length)
                nulChar)) := by
        simp [realloc_grow, hbuf]
      rw [hre, CR.bind_ok]
      have hvvlen : (buf.take (o.offset + cstrlen data + 1) ++
          List.replicate (o.offset + cstrlen data + 1 - buf.length)
            nulChar).length = o.offset + cstrlen data + 1 := by
        simp only [List.length_append, List.length_take, List.length_replicate]
        omega
      simp only [getB_allocB]
      have hms := @memset_zero_spec
        (buf.take (o.offset + cstrlen data + 1) ++
          List.replicate (o.offset + cstrlen data + 1 - buf.length) nulChar)
        e.size (o.offset + cstrlen data)
        (by omega) (by rw [hvvlen]; omega)
      rw [hms.1]
      simp only [CR.bind_ok]
      set vv := List.take (o.offset + cstrlen data + 1) buf ++
        List.replicate (o.offset + cstrlen data + 1 - List.length buf) nulChar
        with hvv
      set out1 := List.take e.size vv ++
        List.replicate (o.offset + cstrlen data - e.size) nulChar ++
        List.drop (o.offset + cstrlen data) vv with hout1
      set pA := allocB (freeB s b) vv with hpA
      set s3 := setE (setB pA.1 pA.2 out1) o.file
        { e with size := o.offset + cstrlen data, content := some pA.2 } with hs3
      have hofl : o.file < (setB pA.1 pA.2 out1).entries.length := by
        have h0 := getE_lt hget
        simpa [setB, allocB, freeB, hpA] using h0
      have h1 : getE s3 o.file =
          some { e with size := o.offset + cstrlen data, content := some pA.2 } := by
        rw [hs3]
        exact getE_setE_self _ hofl
      rw [h1]
      simp only []
      have h2 : getB s3 pA.2 = some out1 := by
        rw [hs3, getB_setE]
        exact getB_setB_self _ (by simp [hpA, allocB, freeB])
      rw [h2]
      simp only []
      have hm2 := @memcpy_at_spec out1 (data.take (cstrlen data)) o.offset
        (by rw [htake, hms.2, hvvlen]; omega)
      rw [hm2.1]
      simp only []
      rw [if_pos (by
        show (o.offset + cstrlen data) < _
        rw [hm2.2, hms.2, hvvlen]
        omega)]
      exact ⟨_, rfl⟩
    · rw [if_neg hgrow, CR.bind_ok, hget]
      simp only []
      rw [hcont]
      simp only []
      rw [hbuf]
      simp only []
      have hm2 := @memcpy_at_spec buf (data.take (cstrlen data)) o.offset
        (by rw [htake, hlen]; omega)
      rw [hm2.1]
      simp only []
      rw [if_pos (by rw [hm2.2, hlen]; omega)]
      exact ⟨_, rfl⟩

/-- Claim C5 witness: the failure-conditions theorem applied at
concrete states — a write refused at write time after the bit was
revoked post-open, and a successful write when no condition holds. -/
theorem c5_write_failure_conditions_witness :
    getE stFOpenC 1 = some eF4
    ∧ fs_write stFOpenC 3 (cs "x") = .ok (stFOpenC, .permDenied)
    ∧ ∃ s2, fs_write stOpen 3 (cs "hello") =
        .ok (s2, .written (cstrlen (cs "hello"))) :=
  ⟨by decide,
   (c5_write_failure_conditions stFOpenC 3 (cs "x")).2.2.1
     ⟨3, 1, 2, 0⟩ eF4 (by decide) (by decide) (by decide) (by decide),
   (c5_write_failure_conditions stOpen 3 (cs "hello")).2.2.2.1
     ⟨3, 1, 2, 0⟩ eA1 0 (List.replicate 101 nulChar) (by decide) (by decide)
     (by decide) (by decide) (by decide) (by decide) (by decide) (by decide)⟩

/-- Claim C10 witness: the frame theorem applied at the concrete state
`stAB`, showing the chmod result and that entry 2 (`b`) is untouched. -/
theorem c10_chmod_per_name_witness :
    getE stAB 1 = some eA1
    ∧ fs_chmod stAB 10 4 (cs "a") =
        .ok (setE stAB 1 { eA1 with perms := (4 : Int).toNat }, .changed 4)
    ∧ getE (setE stAB 1 { eA1 with perms := (4 : Int).toNat }) 2 = getE stAB 2 :=
  ⟨by decide,
   (c10_chmod_per_name.1 stAB 10 (cs "a") 4 1 (some 0) eA1 (by decide) (by decide)
     (by decide) (by decide) (by decide)).1,
   (c10_chmod_per_name.1 stAB 10 (cs "a") 4 1 (some 0) eA1 (by decide) (by decide)
     (by decide) (by decide) (by decide)).2 2 (by decide)⟩

end Hebcfs
